import Mathlib

/-!
# go-anon/simple: supervised loop (`cmds.Forever`) and environment accessors (`env`)

A shallow embedding of `src/cmds/forever.go` and `src/configs/env/env.go`.

* The supervised loop is embedded as a function producing the trace of observable
  effects (log lines, cancellation polls, callback invocations) of one call of
  `Forever`, together with the final status of the background goroutine.
* The environment accessors are embedded as pure functions of the process
  environment, a lookup `String → Option String` (`os.LookupEnv`).
-/

set_option autoImplicit false

/-! ## Supervised loop -/

/-- How one callback invocation ends: it returns normally or it panics. -/
inductive Outcome where
  | ret
  | fault
  deriving DecidableEq, Repr

/-- Severity of a diagnostic line. -/
inductive Level where
  | error
  | warn
  | info
  deriving DecidableEq, Repr

/-- Argument of a formatted diagnostic line. -/
inductive Arg where
  | str (s : String)
  | int (n : Int)
  | panicValue
  deriving DecidableEq, Repr

/-- Observable effects of one call of `Forever`, in program order. -/
inductive Event where
  /-- A line written through the `logs` package. -/
  | log (lvl : Level) (fmt : String) (args : List Arg)
  /-- One non-blocking evaluation of the `select` statement; `cancelled = true` when
  the `case <-ctx.Done()` branch was taken, `false` when the `default` branch was. -/
  | poll (cancelled : Bool)
  /-- One invocation `rf(ctx)` and how it ended. -/
  | task (o : Outcome)
  /-- The call `debug.PrintStack()`. -/
  | printStack
  /-- The builtin `println()`. -/
  | println
  /-- One invocation `pf()` and how it ended. -/
  | panicFunc (o : Outcome)
  /-- The invocation `done()`. -/
  | done
  deriving DecidableEq, Repr

/-- Final status of the goroutine started by `Forever`.
* `notStarted`: no goroutine was started;
* `returned`: the goroutine function returned (cancellation was observed);
* `panicked`: a panic left the goroutine function unrecovered;
* `running`: the supplied poll results were used up while the loop was still going. -/
inductive Status where
  | notStarted
  | returned
  | panicked
  | running
  deriving DecidableEq, Repr

/-- The type `RunFunc func(ctx context.Context)`: a task is opaque to the supervisor; what
the supervisor observes of its `i`-th invocation (counting from 0) is how it ends. -/
abbrev RunFunc := Nat → Outcome

/-- The type `PanicFunc func()`: what the supervisor observes of the fault handler when it is
invoked for the `i`-th task invocation is how it ends. -/
abbrev PanicFunc := Nat → Outcome

namespace logs

/-- Modelled from the spec: the `logs` package is not among the sources; the spec treats
it as a fire-and-forget leveled sink with formatted arguments. `logs.Error` emits one
error line. -/
def Error (fmt : String) (args : List Arg) : List Event := [Event.log Level.error fmt args]

/-- Modelled from the spec: `logs.Warn` emits one warning line (see `logs.Error`). -/
def Warn (fmt : String) (args : List Arg) : List Event := [Event.log Level.warn fmt args]

/-- Modelled from the spec: `logs.Info` emits one informational line (see `logs.Error`). -/
def Info (fmt : String) (args : List Arg) : List Event := [Event.log Level.info fmt args]

end logs

namespace cmds

/-- The statement `c++` on a Go `int` (64 bits, wrapping). -/
def incr (c : Int) : Int := if c + 1 = 2 ^ 63 then -(2 ^ 63) else c + 1

/-- The function `handlePanic(name, pf)`, run as the deferred call of one iteration.
`panicking` says whether the iteration is unwinding from a panic, that is whether
`recover()` yields a non-nil value (a `panic(nil)` is a `*runtime.PanicNilError`).
The result is the effects of the call and how the call itself ends: `Outcome.fault`
when `pf()` panics, since nothing recovers that panic. -/
def handlePanic (name : String) (pf : Option PanicFunc) (i : Nat) (panicking : Bool) :
    List Event × Outcome :=
  if panicking then
    let ev := logs.Error "Recovered function ( %s ) from panic: %v \n" [Arg.str name, Arg.panicValue]
      ++ [Event.printStack, Event.println]
    match pf with
    | none => (ev, Outcome.ret)
    | some h => (ev ++ [Event.panicFunc (h i)], h i)
  else
    ([], Outcome.ret)

/-- The body of the `default:` case: the anonymous function
`func() { defer handlePanic(name, pf); c++; logs.Info(...); rf(ctx) }()`.
`c` is the counter before the increment, `i` the number of earlier task invocations.
Returns the effects, the new counter and how the anonymous function ends. -/
def iteration (name : String) (rf : RunFunc) (pf : Option PanicFunc) (c : Int) (i : Nat) :
    List Event × Int × Outcome :=
  let c1 := incr c
  let ev := logs.Info "Function ( %s ) is running, cicle %d  ..." [Arg.str name, Arg.int c1]
    ++ [Event.task (rf i)]
  let h := handlePanic name pf i (decide (rf i = Outcome.fault))
  (ev ++ h.1, c1, h.2)

/-- The `for { select { ... } }` loop of the goroutine. `polls` lists the results of the
successive non-blocking polls of `ctx.Done()` (`true`: the context is cancelled). -/
def loop (name : String) (rf : RunFunc) (pf : Option PanicFunc) :
    List Bool → Int → Nat → List Event × Status
  | [], _, _ => ([], Status.running)
  | true :: _, _, _ =>
    (Event.poll true
      :: logs.Info "Context canceled, stopping execution of function %s" [Arg.str name],
      Status.returned)
  | false :: ps, c, i =>
    let it := iteration name rf pf c i
    match it.2.2 with
    | Outcome.fault => (Event.poll false :: it.1, Status.panicked)
    | Outcome.ret =>
      let r := loop name rf pf ps it.2.1 (i + 1)
      (Event.poll false :: (it.1 ++ r.1), r.2)

/-- The goroutine `go func() { defer done(); for { ... } }()`: the deferred `done()` runs
when the goroutine function exits, by return or by panic. -/
def goroutine (name : String) (rf : RunFunc) (pf : Option PanicFunc) (polls : List Bool) :
    List Event × Status :=
  let r := loop name rf pf polls 0 0
  match r.2 with
  | Status.running => r
  | s => (r.1 ++ [Event.done], s)

/-- The function `Forever(ctx, name, rf, pf, done)`: the trace of its effects and the final
status of the goroutine. The context `ctx` is given by the results `polls` of its
successive polls, `rf = none` is a nil task, `pf = none` a nil fault handler, and the
non-nil completion handler `done` shows in the trace as `Event.done`. -/
def Forever (polls : List Bool) (name : String) (rf : Option RunFunc) (pf : Option PanicFunc) :
    List Event × Status :=
  match rf with
  | none =>
    (logs.Error "Cannot run function ( %s ) because the provided function is nil" [Arg.str name],
      Status.notStarted)
  | some f =>
    let r := goroutine name f pf polls
    (logs.Warn "Running function ( %s ) in a resilient way..." [Arg.str name] ++ r.1, r.2)

/-- Number of task invocations in a trace. -/
def taskCalls (t : List Event) : Nat :=
  t.countP (fun e => match e with | Event.task _ => true | _ => false)

/-- Number of fault-handler invocations in a trace. -/
def panicFuncCalls (t : List Event) : Nat :=
  t.countP (fun e => match e with | Event.panicFunc _ => true | _ => false)

/-- Number of completion-handler invocations in a trace. -/
def doneCalls (t : List Event) : Nat := t.count Event.done

/-- The poll results recorded in a trace, in order. -/
def pollsOf (t : List Event) : List Bool :=
  t.filterMap (fun e => match e with | Event.poll b => some b | _ => none)

/-- Number of task invocations in a trace that ended in a fault. -/
def faultCalls (t : List Event) : Nat := t.count (Event.task Outcome.fault)

/-- The outcomes of the task invocations recorded in a trace, in order. -/
def outcomesOf (t : List Event) : List Outcome :=
  t.filterMap (fun e => match e with | Event.task o => some o | _ => none)

/-- The warning line written by `Forever` before it starts the goroutine. -/
abbrev startLine (name : String) : Event :=
  Event.log Level.warn "Running function ( %s ) in a resilient way..." [Arg.str name]

/-- The line written when the loop observes cancellation. -/
abbrev cancelLine (name : String) : Event :=
  Event.log Level.info "Context canceled, stopping execution of function %s" [Arg.str name]

/-- The line written at the start of the iteration that brings the counter to `c`. -/
abbrev cycleLine (name : String) (c : Int) : Event :=
  Event.log Level.info "Function ( %s ) is running, cicle %d  ..." [Arg.str name, Arg.int c]

/-- The line written by `handlePanic` when it has recovered a panic. -/
abbrev recoveredLine (name : String) : Event :=
  Event.log Level.error "Recovered function ( %s ) from panic: %v \n" [Arg.str name, Arg.panicValue]

/-- Which effect may come directly after which in a trace of `Forever name (some rf) pf`;
`pfPresent` says whether the fault handler is non-nil. -/
inductive Follows (name : String) (pfPresent : Bool) : Event → Event → Prop
  | start_poll (b : Bool) :
    Follows name pfPresent
      (Event.log Level.warn "Running function ( %s ) in a resilient way..." [Arg.str name])
      (Event.poll b)
  | poll_cancel :
    Follows name pfPresent (Event.poll true)
      (Event.log Level.info "Context canceled, stopping execution of function %s" [Arg.str name])
  | cancel_done :
    Follows name pfPresent
      (Event.log Level.info "Context canceled, stopping execution of function %s" [Arg.str name])
      Event.done
  | poll_cycle (c : Int) :
    Follows name pfPresent (Event.poll false)
      (Event.log Level.info "Function ( %s ) is running, cicle %d  ..." [Arg.str name, Arg.int c])
  | cycle_task (c : Int) (o : Outcome) :
    Follows name pfPresent
      (Event.log Level.info "Function ( %s ) is running, cicle %d  ..." [Arg.str name, Arg.int c])
      (Event.task o)
  | ret_poll (b : Bool) : Follows name pfPresent (Event.task Outcome.ret) (Event.poll b)
  | fault_recovered :
    Follows name pfPresent (Event.task Outcome.fault)
      (Event.log Level.error "Recovered function ( %s ) from panic: %v \n"
        [Arg.str name, Arg.panicValue])
  | recovered_stack :
    Follows name pfPresent
      (Event.log Level.error "Recovered function ( %s ) from panic: %v \n"
        [Arg.str name, Arg.panicValue])
      Event.printStack
  | stack_println : Follows name pfPresent Event.printStack Event.println
  | println_poll (b : Bool) (h : pfPresent = false) :
    Follows name pfPresent Event.println (Event.poll b)
  | println_panicFunc (o : Outcome) (h : pfPresent = true) :
    Follows name pfPresent Event.println (Event.panicFunc o)
  | panicFunc_poll (b : Bool) : Follows name pfPresent (Event.panicFunc Outcome.ret) (Event.poll b)
  | panicFunc_done : Follows name pfPresent (Event.panicFunc Outcome.fault) Event.done

/-- The effects at which a trace of the loop may end, by final status. -/
def LastOK (name : String) (pfPresent : Bool) (s : Status) (e : Event) : Prop :=
  match s with
  | Status.notStarted => False
  | Status.returned =>
    e = Event.log Level.info "Context canceled, stopping execution of function %s" [Arg.str name]
  | Status.panicked => e = Event.panicFunc Outcome.fault
  | Status.running =>
    e = Event.task Outcome.ret ∨ (e = Event.println ∧ pfPresent = false)
      ∨ e = Event.panicFunc Outcome.ret

end cmds

/-! ## Environment accessors -/

namespace strs

/-- Modelled from the spec: the fields of "comma-separated" text, for the absent
`strs.SplitString`. The character list is cut at every occurrence of `sep`; there is
always at least one field, and `k` separators give `k + 1` fields. -/
def fields (sep : Char) : List Char → List (List Char)
  | [] => [[]]
  | c :: cs =>
    if c = sep then [] :: fields sep cs
    else
      match fields sep cs with
      | [] => [[c]]
      | f :: fs => (c :: f) :: fs

/-- Modelled from the spec: `strs.SplitString` is not among the sources; the spec calls
the list accessors "comma-separated" and gives `"1,2,3"` ↦ `["1","2","3"]`. The model
cuts `s` at every occurrence of a one-character separator and keeps empty fields; for
a separator that is not one character the whole of `s` is the only field. -/
def SplitString (s sep : String) : List String :=
  match sep.data with
  | [c] => (fields c s.data).map String.mk
  | _ => [s]

end strs

namespace ints

/-- Value of a decimal digit character, if it is one. -/
def digit (c : Char) : Option Nat :=
  if 48 ≤ c.toNat ∧ c.toNat ≤ 57 then some (c.toNat - 48) else none

/-- Value of a non-empty string of decimal digits, most significant first, on top of
the accumulator `acc`. -/
def digits : List Char → Nat → Option Nat
  | [], acc => some acc
  | c :: cs, acc =>
    match digit c with
    | none => none
    | some d => digits cs (acc * 10 + d)

/-- Modelled from the spec: the "integer parse" behind the absent `ints.Get`, in the
manner of `strconv.Atoi` on a 64-bit `int`: an optional sign, then at least one decimal
digit and nothing else; a value outside the `int` range is a parse failure. -/
def parse (s : String) : Option Int :=
  let body : List Char × Bool :=
    match s.data with
    | '-' :: cs => (cs, true)
    | '+' :: cs => (cs, false)
    | cs => (cs, false)
  match body.1 with
  | [] => none
  | cs =>
    match digits cs 0 with
    | none => none
    | some n =>
      let v : Int := if body.2 then -(n : Int) else (n : Int)
      if -(2 ^ 63) ≤ v ∧ v < 2 ^ 63 then some v else none

/-- Modelled from the spec: `ints.Get` is not among the sources; the spec describes it
as the integer parse with "the integer-parse failure default (0)". -/
def Get (s : String) : Int := (parse s).getD 0

end ints

namespace env

/-- The function `Get(env_name, defaults)`; `environ` is `os.LookupEnv`. -/
def Get (environ : String → Option String) (env_name defaults : String) : String :=
  match environ env_name with
  | some v => v
  | none => defaults

/-- The function `GetSlice(env_name, defaults...)`; `len(string_values) > 0` holds exactly
when the string is not empty, in bytes as in characters. -/
def GetSlice (environ : String → Option String) (env_name : String) (defaults : List String) :
    List String :=
  let string_values := Get environ env_name ""
  if string_values.length > 0 then strs.SplitString string_values "," else defaults

/-- The function `GetInt(env_name, defaults)`. -/
def GetInt (environ : String → Option String) (env_name : String) (defaults : Int) : Int :=
  match environ env_name with
  | some v => ints.Get v
  | none => defaults

/-- The function `GetSliceInt(env_name, defaults...)`: `res` starts empty and receives
`ints.Get v` for each `v` of `GetSlice(env_name)` in order. -/
def GetSliceInt (environ : String → Option String) (env_name : String) (defaults : List Int) :
    List Int :=
  let values := GetSlice environ env_name []
  if values.length > 0 then values.foldl (fun res v => res ++ [ints.Get v]) [] else defaults

end env

/-- The environment in which only `X` is set, to `v`. -/
def envX (v : String) : String → Option String := fun n => if n = "X" then some v else none

/-- The environment in which nothing is set. -/
def envNone : String → Option String := fun _ => none

/-! ## Structure of the traces of the supervised loop -/

namespace cmds

theorem iteration_cases (name : String) (rf : RunFunc) (pf : Option PanicFunc) (c : Int) (i : Nat) :
    (rf i = Outcome.ret ∧ iteration name rf pf c i =
      ([Event.log Level.info "Function ( %s ) is running, cicle %d  ..."
          [Arg.str name, Arg.int (incr c)], Event.task Outcome.ret], incr c, Outcome.ret))
    ∨ (rf i = Outcome.fault ∧ pf = none ∧ iteration name rf pf c i =
      ([Event.log Level.info "Function ( %s ) is running, cicle %d  ..."
          [Arg.str name, Arg.int (incr c)], Event.task Outcome.fault,
        Event.log Level.error "Recovered function ( %s ) from panic: %v \n"
          [Arg.str name, Arg.panicValue], Event.printStack, Event.println],
        incr c, Outcome.ret))
    ∨ (rf i = Outcome.fault ∧ ∃ h, pf = some h ∧ iteration name rf pf c i =
      ([Event.log Level.info "Function ( %s ) is running, cicle %d  ..."
          [Arg.str name, Arg.int (incr c)], Event.task Outcome.fault,
        Event.log Level.error "Recovered function ( %s ) from panic: %v \n"
          [Arg.str name, Arg.panicValue], Event.printStack, Event.println,
        Event.panicFunc (h i)], incr c, h i)) := by
  cases hr : rf i with
  | ret => left; simp [iteration, handlePanic, logs.Info, hr]
  | fault =>
    right
    cases pf with
    | none => left; simp [iteration, handlePanic, logs.Info, logs.Error, hr]
    | some h => right; exact ⟨rfl, h, rfl, by simp [iteration, handlePanic, logs.Info, logs.Error, hr]⟩

theorem loop_nil (name : String) (rf : RunFunc) (pf : Option PanicFunc) (c : Int) (i : Nat) :
    loop name rf pf [] c i = ([], Status.running) := rfl

theorem loop_true (name : String) (rf : RunFunc) (pf : Option PanicFunc) (ps : List Bool)
    (c : Int) (i : Nat) :
    loop name rf pf (true :: ps) c i =
      ([Event.poll true,
        Event.log Level.info "Context canceled, stopping execution of function %s" [Arg.str name]],
        Status.returned) := rfl

theorem loop_false_fault (name : String) (rf : RunFunc) (pf : Option PanicFunc) (ps : List Bool)
    (c : Int) (i : Nat) (h : (iteration name rf pf c i).2.2 = Outcome.fault) :
    loop name rf pf (false :: ps) c i =
      (Event.poll false :: (iteration name rf pf c i).1, Status.panicked) := by
  simp [loop, h]

theorem loop_false_ret (name : String) (rf : RunFunc) (pf : Option PanicFunc) (ps : List Bool)
    (c : Int) (i : Nat) (h : (iteration name rf pf c i).2.2 = Outcome.ret) :
    loop name rf pf (false :: ps) c i =
      (Event.poll false :: ((iteration name rf pf c i).1
          ++ (loop name rf pf ps (iteration name rf pf c i).2.1 (i + 1)).1),
        (loop name rf pf ps (iteration name rf pf c i).2.1 (i + 1)).2) := by
  simp [loop, h]


/-- Induction over the runs of the loop, one case per way an iteration can go. -/
theorem loop_ind (name : String) (rf : RunFunc) (pf : Option PanicFunc)
    (motive : List Bool → Int → Nat → List Event × Status → Prop)
    (hnil : ∀ c i, motive [] c i ([], Status.running))
    (hcancel : ∀ ps c i, motive (true :: ps) c i
      ([Event.poll true,
        Event.log Level.info "Context canceled, stopping execution of function %s" [Arg.str name]],
        Status.returned))
    (hret : ∀ ps c i r, rf i = Outcome.ret → motive ps (incr c) (i + 1) r →
      motive (false :: ps) c i
        (Event.poll false ::
          Event.log Level.info "Function ( %s ) is running, cicle %d  ..."
            [Arg.str name, Arg.int (incr c)] ::
          Event.task Outcome.ret :: r.1, r.2))
    (hnone : ∀ ps c i r, rf i = Outcome.fault → pf = none → motive ps (incr c) (i + 1) r →
      motive (false :: ps) c i
        (Event.poll false ::
          Event.log Level.info "Function ( %s ) is running, cicle %d  ..."
            [Arg.str name, Arg.int (incr c)] ::
          Event.task Outcome.fault ::
          Event.log Level.error "Recovered function ( %s ) from panic: %v \n"
            [Arg.str name, Arg.panicValue] ::
          Event.printStack :: Event.println :: r.1, r.2))
    (hsome : ∀ ps c i r h, rf i = Outcome.fault → pf = some h → h i = Outcome.ret →
      motive ps (incr c) (i + 1) r →
      motive (false :: ps) c i
        (Event.poll false ::
          Event.log Level.info "Function ( %s ) is running, cicle %d  ..."
            [Arg.str name, Arg.int (incr c)] ::
          Event.task Outcome.fault ::
          Event.log Level.error "Recovered function ( %s ) from panic: %v \n"
            [Arg.str name, Arg.panicValue] ::
          Event.printStack :: Event.println :: Event.panicFunc Outcome.ret :: r.1, r.2))
    (hcrash : ∀ ps c i h, rf i = Outcome.fault → pf = some h → h i = Outcome.fault →
      motive (false :: ps) c i
        ([Event.poll false,
          Event.log Level.info "Function ( %s ) is running, cicle %d  ..."
            [Arg.str name, Arg.int (incr c)],
          Event.task Outcome.fault,
          Event.log Level.error "Recovered function ( %s ) from panic: %v \n"
            [Arg.str name, Arg.panicValue],
          Event.printStack, Event.println, Event.panicFunc Outcome.fault], Status.panicked)) :
    ∀ ps c i, motive ps c i (loop name rf pf ps c i) := by
  intro ps
  induction ps with
  | nil => intro c i; exact hnil c i
  | cons b ps ih =>
    intro c i
    cases b with
    | true => exact hcancel ps c i
    | false =>
      rcases iteration_cases name rf pf c i with ⟨hr, hit⟩ | ⟨hr, hp, hit⟩ | ⟨hr, h, hp, hit⟩
      · have := hret ps c i _ hr (ih (incr c) (i + 1))
        rw [loop_false_ret name rf pf ps c i (by rw [hit])]
        simpa [hit] using this
      · have := hnone ps c i _ hr hp (ih (incr c) (i + 1))
        rw [loop_false_ret name rf pf ps c i (by rw [hit])]
        simpa [hit] using this
      · cases hh : h i with
        | ret =>
          have := hsome ps c i _ h hr hp hh (ih (incr c) (i + 1))
          rw [loop_false_ret name rf pf ps c i (by rw [hit]; exact hh)]
          simpa [hit, hh] using this
        | fault =>
          have := hcrash ps c i h hr hp hh
          rw [loop_false_fault name rf pf ps c i (by rw [hit]; exact hh)]
          simpa [hit, hh] using this

/-- No trace of the loop contains the completion handler, and the loop is never
`notStarted`. -/
theorem loop_no_done (name : String) (rf : RunFunc) (pf : Option PanicFunc) :
    ∀ ps c i, Event.done ∉ (loop name rf pf ps c i).1
      ∧ (loop name rf pf ps c i).2 ≠ Status.notStarted := by
  refine loop_ind name rf pf (fun _ _ _ r => Event.done ∉ r.1 ∧ r.2 ≠ Status.notStarted)
    ?_ ?_ ?_ ?_ ?_ ?_
  · intro c i; simp
  · intro ps c i; simp
  · intro ps c i r _ ih; simpa using ih
  · intro ps c i r _ _ ih; simpa using ih
  · intro ps c i r h _ _ _ ih; simpa using ih
  · intro ps c i h _ _ _; simp

/-- A loop whose poll results include a cancellation does not run out of polls. -/
theorem loop_not_running (name : String) (rf : RunFunc) (pf : Option PanicFunc) :
    ∀ ps c i, true ∈ ps → (loop name rf pf ps c i).2 ≠ Status.running := by
  refine loop_ind name rf pf (fun ps _ _ r => true ∈ ps → r.2 ≠ Status.running)
    ?_ ?_ ?_ ?_ ?_ ?_
  · intro c i h; simp at h
  · intro ps c i _; simp
  · intro ps c i r _ ih h; exact ih (by simpa using h)
  · intro ps c i r _ _ ih h; exact ih (by simpa using h)
  · intro ps c i r h _ _ _ ih hm; exact ih (by simpa using hm)
  · intro ps c i h _ _ _ _; simp


/-- Shape of every trace of the loop: consecutive effects obey `Follows`, the first
effect is a poll, and the last effect is one allowed by the final status. -/
theorem loop_shape (name : String) (rf : RunFunc) (pf : Option PanicFunc) :
    ∀ ps c i, List.Chain' (Follows name pf.isSome) (loop name rf pf ps c i).1
      ∧ (∀ e ∈ (loop name rf pf ps c i).1.head?, ∃ b, e = Event.poll b)
      ∧ (∀ e ∈ (loop name rf pf ps c i).1.getLast?,
          LastOK name pf.isSome (loop name rf pf ps c i).2 e)
      ∧ ((loop name rf pf ps c i).1 = [] → (loop name rf pf ps c i).2 = Status.running) := by
  refine loop_ind name rf pf
    (fun _ _ _ r => List.Chain' (Follows name pf.isSome) r.1
      ∧ (∀ e ∈ r.1.head?, ∃ b, e = Event.poll b)
      ∧ (∀ e ∈ r.1.getLast?, LastOK name pf.isSome r.2 e)
      ∧ (r.1 = [] → r.2 = Status.running))
    ?_ ?_ ?_ ?_ ?_ ?_
  · intro c i; simp
  · intro ps c i
    simp [LastOK, List.chain'_cons, Follows.poll_cancel]
  · rintro ps c i ⟨t, s⟩ _ ⟨hc, hh, hl, he⟩
    refine ⟨?_, by simp, ?_, by simp⟩
    · refine List.Chain'.cons (Follows.poll_cycle _) (List.Chain'.cons (Follows.cycle_task _ _) ?_)
      refine List.Chain'.cons' hc ?_
      intro y hy
      obtain ⟨b, rfl⟩ := hh y hy
      exact Follows.ret_poll b
    · cases t with
      | nil =>
        have := he rfl
        simp only at this
        subst this
        simp [LastOK]
      | cons x tl => simpa using hl
  · rintro ps c i ⟨t, s⟩ _ hp ⟨hc, hh, hl, he⟩
    subst hp
    refine ⟨?_, by simp, ?_, by simp⟩
    · refine List.Chain'.cons (Follows.poll_cycle _) (List.Chain'.cons (Follows.cycle_task _ _)
        (List.Chain'.cons Follows.fault_recovered (List.Chain'.cons Follows.recovered_stack
          (List.Chain'.cons Follows.stack_println ?_))))
      refine List.Chain'.cons' hc ?_
      intro y hy
      obtain ⟨b, rfl⟩ := hh y hy
      exact Follows.println_poll b rfl
    · cases t with
      | nil =>
        have := he rfl
        simp only at this
        subst this
        simp [LastOK]
      | cons x tl => simpa using hl
  · rintro ps c i ⟨t, s⟩ h _ hp _ ⟨hc, hh, hl, he⟩
    subst hp
    refine ⟨?_, by simp, ?_, by simp⟩
    · refine List.Chain'.cons (Follows.poll_cycle _) (List.Chain'.cons (Follows.cycle_task _ _)
        (List.Chain'.cons Follows.fault_recovered (List.Chain'.cons Follows.recovered_stack
          (List.Chain'.cons Follows.stack_println
            (List.Chain'.cons (Follows.println_panicFunc _ rfl) ?_)))))
      refine List.Chain'.cons' hc ?_
      intro y hy
      obtain ⟨b, rfl⟩ := hh y hy
      exact Follows.panicFunc_poll b
    · cases t with
      | nil =>
        have := he rfl
        simp only at this
        subst this
        simp [LastOK]
      | cons x tl => simpa using hl
  · rintro ps c i h _ hp _
    subst hp
    refine ⟨?_, by simp, by simp [LastOK], by simp⟩
    exact List.Chain'.cons (Follows.poll_cycle _) (List.Chain'.cons (Follows.cycle_task _ _)
        (List.Chain'.cons Follows.fault_recovered (List.Chain'.cons Follows.recovered_stack
          (List.Chain'.cons Follows.stack_println
            (List.Chain'.cons (Follows.println_panicFunc _ rfl) (List.chain'_singleton _))))))


/-- The trace of `Forever` on a non-nil task: the start line, the trace of the loop, and
`done` unless the loop is still running. -/
theorem forever_some (polls : List Bool) (name : String) (rf : RunFunc) (pf : Option PanicFunc) :
    Forever polls name (some rf) pf =
      (Event.log Level.warn "Running function ( %s ) in a resilient way..." [Arg.str name] ::
        ((loop name rf pf polls 0 0).1 ++
          if (loop name rf pf polls 0 0).2 = Status.running then [] else [Event.done]),
        (loop name rf pf polls 0 0).2) := by
  unfold Forever goroutine
  cases h : (loop name rf pf polls 0 0).2 <;> simp [logs.Warn, h]

/-- Consecutive effects of a trace of `Forever` obey `Follows`. -/
theorem forever_chain (polls : List Bool) (name : String) (rf : RunFunc) (pf : Option PanicFunc) :
    List.Chain' (Follows name pf.isSome) (Forever polls name (some rf) pf).1 := by
  rw [forever_some]
  obtain ⟨hc, hh, hl, he⟩ := loop_shape name rf pf polls 0 0
  have hnd := (loop_no_done name rf pf polls 0 0).2
  simp only
  refine List.Chain'.cons' ?_ ?_
  · refine List.chain'_append.2 ⟨hc, ?_, ?_⟩
    · split <;> simp
    · intro x hx y hy
      have hx' := hl x hx
      cases hs : (loop name rf pf polls 0 0).2 with
      | notStarted => exact absurd hs hnd
      | running => simp [hs] at hy
      | returned =>
        simp [hs] at hy
        subst hy
        rw [hs] at hx'
        simp only [LastOK] at hx'
        subst hx'
        exact Follows.cancel_done
      | panicked =>
        simp [hs] at hy
        subst hy
        rw [hs] at hx'
        simp only [LastOK] at hx'
        subst hx'
        exact Follows.panicFunc_done
  · intro y hy
    cases ht : (loop name rf pf polls 0 0).1 with
    | nil =>
      have := he ht
      simp [ht, this] at hy
    | cons x tl =>
      rw [ht] at hh
      obtain ⟨b, hb⟩ := hh x (by simp)
      subst hb
      simp [ht] at hy
      subst hy
      exact Follows.start_poll b

/-- Two effects that are consecutive in a trace are related by the chain relation. -/
theorem chain_adjacent {R : Event → Event → Prop} {l pre post : List Event} {x y : Event}
    (hc : List.Chain' R l) (hl : l = pre ++ x :: y :: post) : R x y := by
  subst hl
  have := (List.chain'_append.1 hc).2.1
  exact (List.chain'_cons.1 this).1

/-- The last effect of a trace of `Forever` on a non-nil task: `done` once the goroutine
has exited; while it is running, the start line or the end of a whole iteration. -/
theorem forever_last (polls : List Bool) (name : String) (rf : RunFunc) (pf : Option PanicFunc) :
    ∃ pre e, (Forever polls name (some rf) pf).1 = pre ++ [e] ∧ Event.done ∉ pre ∧
      (((Forever polls name (some rf) pf).2 ≠ Status.running ∧ e = Event.done) ∨
       ((Forever polls name (some rf) pf).2 = Status.running ∧
          (e = Event.log Level.warn "Running function ( %s ) in a resilient way..." [Arg.str name]
            ∨ e = Event.task Outcome.ret ∨ (e = Event.println ∧ pf = none)
            ∨ e = Event.panicFunc Outcome.ret))) := by
  rw [forever_some]
  obtain ⟨hc, hh, hl, he⟩ := loop_shape name rf pf polls 0 0
  obtain ⟨hnd, hns⟩ := loop_no_done name rf pf polls 0 0
  simp only
  by_cases hs : (loop name rf pf polls 0 0).2 = Status.running
  · simp only [hs, if_true, List.append_nil]
    rcases List.eq_nil_or_concat (loop name rf pf polls 0 0).1 with ht | ⟨tl, e, ht⟩
    · refine ⟨[], _, by rw [ht]; rfl, by simp, Or.inr ⟨trivial, Or.inl rfl⟩⟩
    · rw [ht] at hl hnd
      have hle := hl e (by simp)
      rw [hs] at hle
      simp only [LastOK] at hle
      refine ⟨Event.log Level.warn "Running function ( %s ) in a resilient way..." [Arg.str name] :: tl, e, by rw [ht]; simp, ?_, Or.inr ⟨trivial, Or.inr ?_⟩⟩
      · simp at hnd ⊢
        exact hnd.1
      · rcases hle with h | ⟨h, hp⟩ | h
        · exact Or.inl h
        · exact Or.inr (Or.inl ⟨h, by simpa using hp⟩)
        · exact Or.inr (Or.inr h)
  · simp only [hs, if_false]
    refine ⟨Event.log Level.warn "Running function ( %s ) in a resilient way..." [Arg.str name] :: (loop name rf pf polls 0 0).1, Event.done, by simp, ?_,
      Or.inl ⟨hs, rfl⟩⟩
    simpa using hnd


/-- Counting in the traces of the loop: one task invocation per poll that reported
"active", one fault-handler invocation per faulting task invocation when the handler is
non-nil and none otherwise, and the outcomes of the task invocations are those of the
task itself, in order. -/
theorem loop_counts (name : String) (rf : RunFunc) (pf : Option PanicFunc) :
    ∀ ps c i, taskCalls (loop name rf pf ps c i).1 = (pollsOf (loop name rf pf ps c i).1).count false
      ∧ panicFuncCalls (loop name rf pf ps c i).1
          = (if pf.isSome then faultCalls (loop name rf pf ps c i).1 else 0)
      ∧ outcomesOf (loop name rf pf ps c i).1
          = (List.range' i (taskCalls (loop name rf pf ps c i).1)).map rf := by
  refine loop_ind name rf pf
    (fun _ _ i r => taskCalls r.1 = (pollsOf r.1).count false
      ∧ panicFuncCalls r.1 = (if pf.isSome then faultCalls r.1 else 0)
      ∧ outcomesOf r.1 = (List.range' i (taskCalls r.1)).map rf)
    ?_ ?_ ?_ ?_ ?_ ?_
  · intro c i; simp [taskCalls, pollsOf, panicFuncCalls, faultCalls, outcomesOf]
  · intro ps c i; simp [taskCalls, pollsOf, panicFuncCalls, faultCalls, outcomesOf]
  · rintro ps c i ⟨t, s⟩ hr ⟨h1, h2, h3⟩
    simp only [taskCalls, pollsOf, panicFuncCalls, faultCalls, outcomesOf] at h1 h2 h3 ⊢
    refine ⟨?_, ?_, ?_⟩
    · simp [h1]
    · simp [h2]
    · simp [h3, List.range'_succ, hr]
  · rintro ps c i ⟨t, s⟩ hr hp ⟨h1, h2, h3⟩
    subst hp
    simp only [taskCalls, pollsOf, panicFuncCalls, faultCalls, outcomesOf] at h1 h2 h3 ⊢
    refine ⟨?_, ?_, ?_⟩
    · simp [h1]
    · simpa using h2
    · simp [h3, List.range'_succ, hr]
  · rintro ps c i ⟨t, s⟩ h hr hp hh ⟨h1, h2, h3⟩
    subst hp
    simp only [taskCalls, pollsOf, panicFuncCalls, faultCalls, outcomesOf] at h1 h2 h3 ⊢
    refine ⟨?_, ?_, ?_⟩
    · simp [h1]
    · simp at h2 ⊢
      simp [h2]
    · simp [h3, List.range'_succ, hr]
  · rintro ps c i h hr hp hh
    subst hp
    simp [taskCalls, pollsOf, panicFuncCalls, faultCalls, outcomesOf, hr]

/-- The polls made by the loop are an initial part of the poll results it is given, and
the loop stops at the first poll that reports cancellation. -/
theorem loop_polls (name : String) (rf : RunFunc) (pf : Option PanicFunc) :
    ∀ ps c i, pollsOf (loop name rf pf ps c i).1 <+: ps
      ∧ (((loop name rf pf ps c i).2 = Status.returned
            ∧ ∃ n, pollsOf (loop name rf pf ps c i).1 = List.replicate n false ++ [true])
          ∨ ((loop name rf pf ps c i).2 ≠ Status.returned
            ∧ ∃ n, pollsOf (loop name rf pf ps c i).1 = List.replicate n false)) := by
  refine loop_ind name rf pf
    (fun ps _ _ r => pollsOf r.1 <+: ps
      ∧ ((r.2 = Status.returned ∧ ∃ n, pollsOf r.1 = List.replicate n false ++ [true])
          ∨ (r.2 ≠ Status.returned ∧ ∃ n, pollsOf r.1 = List.replicate n false)))
    ?_ ?_ ?_ ?_ ?_ ?_
  · intro c i
    exact ⟨by simp [pollsOf], Or.inr ⟨by simp, 0, by simp [pollsOf]⟩⟩
  · intro ps c i
    exact ⟨by simp [pollsOf, List.prefix_iff_eq_append], Or.inl ⟨rfl, 0, by simp [pollsOf]⟩⟩
  · rintro ps c i ⟨t, s⟩ _ ⟨h1, h2⟩
    simp only [pollsOf] at h1 h2 ⊢
    refine ⟨by simpa [List.cons_prefix_cons] using h1, ?_⟩
    rcases h2 with ⟨hs, n, hn⟩ | ⟨hs, n, hn⟩
    · exact Or.inl ⟨hs, n + 1, by simp [hn, List.replicate_succ]⟩
    · exact Or.inr ⟨hs, n + 1, by simp [hn, List.replicate_succ]⟩
  · rintro ps c i ⟨t, s⟩ _ _ ⟨h1, h2⟩
    simp only [pollsOf] at h1 h2 ⊢
    refine ⟨by simpa [List.cons_prefix_cons] using h1, ?_⟩
    rcases h2 with ⟨hs, n, hn⟩ | ⟨hs, n, hn⟩
    · exact Or.inl ⟨hs, n + 1, by simp [hn, List.replicate_succ]⟩
    · exact Or.inr ⟨hs, n + 1, by simp [hn, List.replicate_succ]⟩
  · rintro ps c i ⟨t, s⟩ h _ _ _ ⟨h1, h2⟩
    simp only [pollsOf] at h1 h2 ⊢
    refine ⟨by simpa [List.cons_prefix_cons] using h1, ?_⟩
    rcases h2 with ⟨hs, n, hn⟩ | ⟨hs, n, hn⟩
    · exact Or.inl ⟨hs, n + 1, by simp [hn, List.replicate_succ]⟩
    · exact Or.inr ⟨hs, n + 1, by simp [hn, List.replicate_succ]⟩
  · rintro ps c i h _ _ _
    exact ⟨by simp [pollsOf, List.prefix_iff_eq_append], Or.inr ⟨by simp, 1, by simp [pollsOf]⟩⟩


/-- Counts over a trace of `Forever` on a non-nil task, in terms of the trace of the loop. -/
theorem forever_counts (polls : List Bool) (name : String) (rf : RunFunc) (pf : Option PanicFunc) :
    taskCalls (Forever polls name (some rf) pf).1 = taskCalls (loop name rf pf polls 0 0).1
    ∧ panicFuncCalls (Forever polls name (some rf) pf).1
        = panicFuncCalls (loop name rf pf polls 0 0).1
    ∧ faultCalls (Forever polls name (some rf) pf).1 = faultCalls (loop name rf pf polls 0 0).1
    ∧ pollsOf (Forever polls name (some rf) pf).1 = pollsOf (loop name rf pf polls 0 0).1
    ∧ outcomesOf (Forever polls name (some rf) pf).1 = outcomesOf (loop name rf pf polls 0 0).1
    ∧ doneCalls (Forever polls name (some rf) pf).1
        = (if (loop name rf pf polls 0 0).2 = Status.running then 0 else 1)
    ∧ (Forever polls name (some rf) pf).2 = (loop name rf pf polls 0 0).2 := by
  rw [forever_some]
  have hnd := (loop_no_done name rf pf polls 0 0).1
  by_cases hs : (loop name rf pf polls 0 0).2 = Status.running
  · simp [hs, taskCalls, panicFuncCalls, faultCalls, pollsOf, outcomesOf, doneCalls,
      List.count_eq_zero.2 hnd]
  · simp [hs, taskCalls, panicFuncCalls, faultCalls, pollsOf, outcomesOf, doneCalls,
      List.count_eq_zero.2 hnd, List.countP_append, List.filterMap_append]

/-- An effect that ends a trace and occurs nowhere before its end occurs only there. -/
theorem last_unique {l pre0 pre post : List Event} {e : Event} (h0 : l = pre0 ++ [e])
    (hn : e ∉ pre0) (h : l = pre ++ e :: post) : post = [] := by
  rcases List.eq_nil_or_concat post with hp | ⟨post1, z, hp⟩
  · exact hp
  · exfalso
    subst hp
    rw [h0] at h
    have h2 : pre0 ++ [e] = (pre ++ e :: post1) ++ [z] := by simpa using h
    have h3 := (List.append_inj' h2 rfl).1
    exact hn (by rw [h3]; simp)


theorem follows_inv {name : String} {b : Bool} {x y : Event} (h : Follows name b x y) :
    (x = startLine name ∧ ∃ p, y = Event.poll p)
    ∨ (x = Event.poll true ∧ y = cancelLine name)
    ∨ (x = cancelLine name ∧ y = Event.done)
    ∨ (x = Event.poll false ∧ ∃ c, y = cycleLine name c)
    ∨ (∃ c, x = cycleLine name c ∧ ∃ o, y = Event.task o)
    ∨ (x = Event.task Outcome.ret ∧ ∃ p, y = Event.poll p)
    ∨ (x = Event.task Outcome.fault ∧ y = recoveredLine name)
    ∨ (x = recoveredLine name ∧ y = Event.printStack)
    ∨ (x = Event.printStack ∧ y = Event.println)
    ∨ (x = Event.println ∧ b = false ∧ ∃ p, y = Event.poll p)
    ∨ (x = Event.println ∧ b = true ∧ ∃ o, y = Event.panicFunc o)
    ∨ (x = Event.panicFunc Outcome.ret ∧ ∃ p, y = Event.poll p)
    ∨ (x = Event.panicFunc Outcome.fault ∧ y = Event.done) := by
  cases h <;> simp_all

theorem follows_task_inv {name : String} {b : Bool} {x : Event} {o : Outcome}
    (h : Follows name b x (Event.task o)) : ∃ c, x = cycleLine name c := by
  have := follows_inv h
  simpa using this

theorem follows_cycle_inv {name : String} {b : Bool} {x : Event} {c : Int}
    (h : Follows name b x (cycleLine name c)) : x = Event.poll false := by
  have := follows_inv h
  simpa using this

theorem follows_poll_false {name : String} {b : Bool} {y : Event}
    (h : Follows name b (Event.poll false) y) : ∃ c, y = cycleLine name c := by
  have := follows_inv h
  simpa using this

theorem follows_cycle_next {name : String} {b : Bool} {y : Event} {c : Int}
    (h : Follows name b (cycleLine name c) y) : ∃ o, y = Event.task o := by
  have := follows_inv h
  simpa using this

theorem follows_poll_true {name : String} {b : Bool} {y : Event}
    (h : Follows name b (Event.poll true) y) : y = cancelLine name := by
  have := follows_inv h
  simpa using this

theorem follows_cancel_next {name : String} {b : Bool} {y : Event}
    (h : Follows name b (cancelLine name) y) : y = Event.done := by
  have := follows_inv h
  simpa using this

theorem follows_fault_next {name : String} {b : Bool} {y : Event}
    (h : Follows name b (Event.task Outcome.fault) y) : y = recoveredLine name := by
  have := follows_inv h
  simpa using this

theorem follows_recovered_next {name : String} {b : Bool} {y : Event}
    (h : Follows name b (recoveredLine name) y) : y = Event.printStack := by
  have := follows_inv h
  simpa using this

theorem follows_stack_next {name : String} {b : Bool} {y : Event}
    (h : Follows name b Event.printStack y) : y = Event.println := by
  have := follows_inv h
  simpa using this

theorem follows_println_next {name : String} {b : Bool} {y : Event}
    (h : Follows name b Event.println y) :
    (b = false ∧ ∃ p, y = Event.poll p) ∨ (b = true ∧ ∃ o, y = Event.panicFunc o) := by
  have := follows_inv h
  simpa using this

theorem follows_ret_next {name : String} {b : Bool} {y : Event}
    (h : Follows name b (Event.task Outcome.ret) y) : ∃ p, y = Event.poll p := by
  have := follows_inv h
  simpa using this

theorem follows_panicFunc_ret_next {name : String} {b : Bool} {y : Event}
    (h : Follows name b (Event.panicFunc Outcome.ret) y) : ∃ p, y = Event.poll p := by
  have := follows_inv h
  simpa using this

theorem follows_panicFunc_fault_next {name : String} {b : Bool} {y : Event}
    (h : Follows name b (Event.panicFunc Outcome.fault) y) : y = Event.done := by
  have := follows_inv h
  simpa using this

theorem follows_panicFunc_inv {name : String} {b : Bool} {x : Event} {o : Outcome}
    (h : Follows name b x (Event.panicFunc o)) : x = Event.println ∧ b = true := by
  have := follows_inv h
  simpa using this

theorem follows_println_inv {name : String} {b : Bool} {x : Event}
    (h : Follows name b x Event.println) : x = Event.printStack := by
  have := follows_inv h
  simpa using this

theorem follows_stack_inv {name : String} {b : Bool} {x : Event}
    (h : Follows name b x Event.printStack) : x = recoveredLine name := by
  have := follows_inv h
  simpa using this

theorem follows_recovered_inv {name : String} {b : Bool} {x : Event}
    (h : Follows name b x (recoveredLine name)) : x = Event.task Outcome.fault := by
  have := follows_inv h
  simpa using this

theorem follows_done_next {name : String} {b : Bool} {y : Event}
    (h : Follows name b Event.done y) : False := by
  have := follows_inv h
  simp at this


/-- In a trace of `Forever` on a non-nil task, every effect other than the start line
has a direct predecessor, and the pair obeys `Follows`. -/
theorem forever_pred {polls : List Bool} {name : String} {rf : RunFunc} {pf : Option PanicFunc}
    {pre post : List Event} {e : Event}
    (h : (Forever polls name (some rf) pf).1 = pre ++ e :: post) (he : e ≠ startLine name) :
    ∃ pre1 x, pre = pre1 ++ [x] ∧ Follows name pf.isSome x e := by
  rcases List.eq_nil_or_concat pre with hp | ⟨pre1, x, hp⟩
  · exfalso
    subst hp
    rw [forever_some] at h
    simp at h
    exact he h.1.symm
  · subst hp
    refine ⟨pre1, x, by simp, ?_⟩
    have h2 : (Forever polls name (some rf) pf).1 = pre1 ++ x :: e :: post := by
      rw [h]; simp
    exact chain_adjacent (forever_chain polls name rf pf) h2

/-- In a trace of `Forever` on a non-nil task, two consecutive effects obey `Follows`. -/
theorem forever_succ {polls : List Bool} {name : String} {rf : RunFunc} {pf : Option PanicFunc}
    {pre post : List Event} {e y : Event}
    (h : (Forever polls name (some rf) pf).1 = pre ++ e :: y :: post) :
    Follows name pf.isSome e y :=
  chain_adjacent (forever_chain polls name rf pf) h

/-- The effect that ends a trace of `Forever` on a non-nil task. -/
theorem forever_end {polls : List Bool} {name : String} {rf : RunFunc} {pf : Option PanicFunc}
    {pre : List Event} {e : Event}
    (h : (Forever polls name (some rf) pf).1 = pre ++ [e]) :
    ((Forever polls name (some rf) pf).2 ≠ Status.running ∧ e = Event.done) ∨
      ((Forever polls name (some rf) pf).2 = Status.running ∧ Event.done ∉ pre ∧
        (e = startLine name ∨ e = Event.task Outcome.ret ∨ (e = Event.println ∧ pf = none)
          ∨ e = Event.panicFunc Outcome.ret)) := by
  obtain ⟨pre0, e0, ht, hn, hlast⟩ := forever_last polls name rf pf
  rw [ht] at h
  obtain ⟨h1, h2⟩ := List.append_inj' h rfl
  simp only [List.cons.injEq, and_true] at h2
  subst h1 h2
  rcases hlast with ⟨a, b⟩ | ⟨a, b⟩
  · exact Or.inl ⟨a, b⟩
  · exact Or.inr ⟨a, hn, b⟩


/-- In a trace of `Forever` on a non-nil task, an effect at which no trace can end has a
direct successor, and the pair obeys `Follows`. -/
theorem forever_next {polls : List Bool} {name : String} {rf : RunFunc} {pf : Option PanicFunc}
    {pre post : List Event} {e : Event}
    (h : (Forever polls name (some rf) pf).1 = pre ++ e :: post)
    (h1 : e ≠ Event.done) (h2 : e ≠ startLine name) (h3 : e ≠ Event.task Outcome.ret)
    (h4 : e = Event.println → pf ≠ none) (h5 : e ≠ Event.panicFunc Outcome.ret) :
    ∃ y post1, post = y :: post1 ∧ Follows name pf.isSome e y := by
  cases post with
  | nil =>
    exfalso
    rcases forever_end h with ⟨_, a⟩ | ⟨_, _, a | a | ⟨a, b⟩ | a⟩
    · exact h1 a
    · exact h2 a
    · exact h3 a
    · exact h4 a b
    · exact h5 a
  | cons y post1 => exact ⟨y, post1, rfl, forever_succ h⟩

/-- A list of "active" polls ended by a "cancelled" one is an initial part of another such
list only if both have the same number of "active" polls. -/
theorem replicate_prefix_eq {m n : Nat} {rest : List Bool}
    (h : List.replicate m false ++ [true] <+: List.replicate n false ++ true :: rest) : m = n := by
  induction m generalizing n with
  | zero =>
    cases n with
    | zero => rfl
    | succ n =>
      obtain ⟨r, hr⟩ := h
      simp [List.replicate_succ] at hr
  | succ m ih =>
    cases n with
    | zero =>
      obtain ⟨r, hr⟩ := h
      simp [List.replicate_succ] at hr
    | succ n =>
      have : List.replicate m false ++ [true] <+: List.replicate n false ++ true :: rest := by
        obtain ⟨r, hr⟩ := h
        refine ⟨r, ?_⟩
        simpa [List.replicate_succ] using hr
      rw [ih this]


/-- A trace of the loop in which an invocation of the fault handler faulted belongs to a
loop that ended by panic. -/
theorem loop_panicFunc_fault (name : String) (rf : RunFunc) (pf : Option PanicFunc) :
    ∀ ps c i, Event.panicFunc Outcome.fault ∈ (loop name rf pf ps c i).1 →
      (loop name rf pf ps c i).2 = Status.panicked := by
  refine loop_ind name rf pf
    (fun _ _ _ r => Event.panicFunc Outcome.fault ∈ r.1 → r.2 = Status.panicked)
    ?_ ?_ ?_ ?_ ?_ ?_
  · intro c i h; simp at h
  · intro ps c i h; simp at h
  · rintro ps c i ⟨t, s⟩ _ ih h; exact ih (by simpa using h)
  · rintro ps c i ⟨t, s⟩ _ _ ih h; exact ih (by simpa using h)
  · rintro ps c i ⟨t, s⟩ h _ _ _ ih hm; exact ih (by simpa using hm)
  · rintro ps c i h _ _ _ _; rfl

/-- A trace of `Forever` in which an invocation of the fault handler faulted belongs to
a goroutine that ended by panic. -/
theorem forever_panicFunc_fault {polls : List Bool} {name : String} {rf : RunFunc}
    {pf : Option PanicFunc}
    (h : Event.panicFunc Outcome.fault ∈ (Forever polls name (some rf) pf).1) :
    (Forever polls name (some rf) pf).2 = Status.panicked := by
  rw [forever_some] at h ⊢
  simp only
  apply loop_panicFunc_fault
  simp only [List.mem_cons, List.mem_append] at h
  rcases h with h | h | h
  · simp at h
  · exact h
  · split at h <;> simp at h


/-- The task invocations of a trace are as many as the outcomes recorded in it, and the
faulting ones as many as the recorded faults. -/
theorem outcomesOf_counts (t : List Event) :
    (outcomesOf t).length = taskCalls t
    ∧ (outcomesOf t).count Outcome.fault = faultCalls t := by
  induction t with
  | nil => simp [outcomesOf, taskCalls, faultCalls]
  | cons e t ih =>
    obtain ⟨ih1, ih2⟩ := ih
    simp only [outcomesOf, taskCalls, faultCalls] at ih1 ih2 ⊢
    cases e with
    | task o =>
      cases o <;> simp [List.filterMap_cons, List.countP_cons, List.count_cons, ih1, ih2]
    | _ => simp [List.filterMap_cons, List.countP_cons, List.count_cons, ih1, ih2]

/-- A task that faults at every invocation: every recorded task invocation faulted. -/
theorem faultCalls_eq_taskCalls (polls : List Bool) (name : String) (rf : RunFunc)
    (pf : Option PanicFunc) (hrf : ∀ k, rf k = Outcome.fault) :
    faultCalls (Forever polls name (some rf) pf).1 = taskCalls (Forever polls name (some rf) pf).1 := by
  obtain ⟨hT, _, _, _, hO, _, _⟩ := forever_counts polls name rf pf
  obtain ⟨_, _, hc3⟩ := loop_counts name rf pf polls 0 0
  obtain ⟨h1, h2⟩ := outcomesOf_counts (Forever polls name (some rf) pf).1
  rw [← h2, ← h1]
  have hall : ∀ o ∈ outcomesOf (Forever polls name (some rf) pf).1, o = Outcome.fault := by
    intro o ho
    rw [hO, hc3] at ho
    simp only [List.mem_map] at ho
    obtain ⟨k, _, hk⟩ := ho
    rw [← hk]; exact hrf k
  rw [List.count_eq_length.2]
  intro o ho
  exact (hall o ho).symm


/-- In a trace of `Forever`, an invocation of the fault handler comes directly after the
four effects of a recovered task fault. -/
theorem forever_before_panicFunc {polls : List Bool} {name : String} {rf : RunFunc}
    {pf : Option PanicFunc} {pre post : List Event} {o : Outcome}
    (h : (Forever polls name (some rf) pf).1 = pre ++ Event.panicFunc o :: post) :
    ∃ pre1, pre = pre1 ++ [Event.task Outcome.fault, recoveredLine name, Event.printStack,
      Event.println] := by
  obtain ⟨p1, x1, rfl, hx1⟩ := forever_pred h (by simp)
  have := (follows_panicFunc_inv hx1).1
  subst this
  have h1 : (Forever polls name (some rf) pf).1
      = p1 ++ Event.println :: (Event.panicFunc o :: post) := by rw [h]; simp
  obtain ⟨p2, x2, rfl, hx2⟩ := forever_pred h1 (by simp)
  have := follows_println_inv hx2
  subst this
  have h2 : (Forever polls name (some rf) pf).1
      = p2 ++ Event.printStack :: (Event.println :: Event.panicFunc o :: post) := by
    rw [h]; simp
  obtain ⟨p3, x3, rfl, hx3⟩ := forever_pred h2 (by simp)
  have := follows_stack_inv hx3
  subst this
  have h3 : (Forever polls name (some rf) pf).1
      = p3 ++ recoveredLine name
        :: (Event.printStack :: Event.println :: Event.panicFunc o :: post) := by
    rw [h]; simp
  obtain ⟨p4, x4, rfl, hx4⟩ := forever_pred h3 (by simp)
  have := follows_recovered_inv hx4
  subst this
  exact ⟨p4, by simp⟩

/-- In a trace of `Forever` with a non-nil fault handler, a faulting task invocation is
directly followed by the recovery effects and one invocation of the fault handler. -/
theorem forever_after_fault {polls : List Bool} {name : String} {rf : RunFunc}
    {hd : PanicFunc} {pre post : List Event}
    (h : (Forever polls name (some rf) (some hd)).1 = pre ++ Event.task Outcome.fault :: post) :
    ∃ o post1, post = recoveredLine name :: Event.printStack :: Event.println
      :: Event.panicFunc o :: post1 := by
  obtain ⟨y1, p1, rfl, hy1⟩ := forever_next h (by simp) (by simp) (by simp) (by simp) (by simp)
  have := follows_fault_next hy1
  subst this
  have h2 : (Forever polls name (some rf) (some hd)).1
      = (pre ++ [Event.task Outcome.fault]) ++ recoveredLine name :: p1 := by
    rw [h]; simp
  obtain ⟨y2, p2, rfl, hy2⟩ := forever_next h2 (by simp) (by simp) (by simp) (by simp) (by simp)
  have := follows_recovered_next hy2
  subst this
  have h3 : (Forever polls name (some rf) (some hd)).1
      = (pre ++ [Event.task Outcome.fault, recoveredLine name]) ++ Event.printStack :: p2 := by
    rw [h]; simp
  obtain ⟨y3, p3, rfl, hy3⟩ := forever_next h3 (by simp) (by simp) (by simp) (by simp) (by simp)
  have := follows_stack_next hy3
  subst this
  have h4 : (Forever polls name (some rf) (some hd)).1
      = (pre ++ [Event.task Outcome.fault, recoveredLine name, Event.printStack])
        ++ Event.println :: p3 := by
    rw [h]; simp
  obtain ⟨y4, p4, rfl, hy4⟩ := forever_next h4 (by simp) (by simp) (by simp) (by simp) (by simp)
  rcases follows_println_next hy4 with ⟨hb, _⟩ | ⟨_, o, ho⟩
  · simp at hb
  · exact ⟨o, p4, by rw [ho]⟩

/-- The loop on `n` "active" polls and one more, when the fault handler first faults in
the iteration of that last poll: the loop ends by panic there, having made exactly
those `n + 1` polls. -/
theorem loop_crash_at (name : String) (rf : RunFunc) (hd : PanicFunc) (rest : List Bool) :
    ∀ n c i, (∀ k, k < n → rf (i + k) = Outcome.fault → hd (i + k) = Outcome.ret) →
      rf (i + n) = Outcome.fault → hd (i + n) = Outcome.fault →
      (loop name rf (some hd) (List.replicate n false ++ false :: rest) c i).2 = Status.panicked
      ∧ pollsOf (loop name rf (some hd) (List.replicate n false ++ false :: rest) c i).1
          = List.replicate (n + 1) false := by
  intro n
  induction n with
  | zero =>
    intro c i _ hf hh
    simp only [Nat.add_zero] at hf hh
    rcases iteration_cases name rf (some hd) c i with ⟨hr, _⟩ | ⟨_, hp, _⟩ | ⟨_, h, hp, hit⟩
    · rw [hf] at hr; cases hr
    · cases hp
    · cases hp
      simp only [List.replicate_zero, List.nil_append]
      rw [loop_false_fault name rf (some hd) rest c i (by rw [hit]; exact hh), hit]
      simp [pollsOf]
  | succ n ih =>
    intro c i hprev hf hh
    have hf' : rf (i + 1 + n) = Outcome.fault := by
      have : i + 1 + n = i + (n + 1) := by omega
      rw [this]; exact hf
    have hh' : hd (i + 1 + n) = Outcome.fault := by
      have : i + 1 + n = i + (n + 1) := by omega
      rw [this]; exact hh
    have hprev' : ∀ k, k < n → rf (i + 1 + k) = Outcome.fault → hd (i + 1 + k) = Outcome.ret := by
      intro k hk
      have : i + 1 + k = i + (k + 1) := by omega
      rw [this]; exact hprev (k + 1) (by omega)
    obtain ⟨ih1, ih2⟩ := ih (incr c) (i + 1) hprev' hf' hh'
    have hlist : List.replicate (n + 1) false ++ false :: rest
        = false :: (List.replicate n false ++ false :: rest) := by
      simp [List.replicate_succ]
    rw [hlist]
    rcases iteration_cases name rf (some hd) c i with ⟨_, hit⟩ | ⟨_, hp, _⟩ | ⟨hr, h, hp, hit⟩
    · rw [loop_false_ret name rf (some hd) _ c i (by rw [hit]), hit]
      refine ⟨ih1, ?_⟩
      simp only [pollsOf] at ih2 ⊢
      simp [ih2, List.replicate_succ]
    · cases hp
    · cases hp
      have h0 : hd i = Outcome.ret := by
        have := hprev 0 (by omega)
        simpa using this hr
      rw [loop_false_ret name rf (some hd) _ c i (by rw [hit]; exact h0), hit]
      refine ⟨ih1, ?_⟩
      simp only [pollsOf] at ih2 ⊢
      simp [ih2, List.replicate_succ]

end cmds

/-! ## The claims on the supervised loop -/

/-- **C1.** For every non-nil task `rf` (any outcomes), every fault handler `pf` and every
list of poll results in which cancellation occurs, the trace of `Forever` contains
exactly one invocation of `done` and ends with it: whatever the decomposition of the
trace around an invocation of `done`, nothing comes after it. -/
theorem forever_done_once_and_last (polls : List Bool) (name : String) (rf : RunFunc)
    (pf : Option PanicFunc) (hcancel : true ∈ polls) :
    cmds.doneCalls (cmds.Forever polls name (some rf) pf).1 = 1
    ∧ (cmds.Forever polls name (some rf) pf).1.getLast? = some Event.done
    ∧ (∀ pre post, (cmds.Forever polls name (some rf) pf).1 = pre ++ Event.done :: post →
        post = []) := by
  have hrun := cmds.loop_not_running name rf pf polls 0 0 hcancel
  obtain ⟨_, _, _, _, _, hd, hs⟩ := cmds.forever_counts polls name rf pf
  obtain ⟨pre0, e, ht, hn, hlast⟩ := cmds.forever_last polls name rf pf
  have he : e = Event.done := by
    rcases hlast with ⟨_, h⟩ | ⟨h, _⟩
    · exact h
    · exact absurd (hs ▸ h) hrun
  subst he
  refine ⟨by rw [hd]; simp [hrun], by rw [ht]; simp, ?_⟩
  intro pre post h
  exact cmds.last_unique ht hn h

/-- Witness of C1: a task that faults on its first invocation, a fault handler, and
cancellation observed at the third poll. -/
theorem forever_done_once_and_last_witness :
    cmds.doneCalls (cmds.Forever [false, false, true] "job"
        (some (fun i => if i = 0 then Outcome.fault else Outcome.ret))
        (some (fun _ => Outcome.ret))).1 = 1
    ∧ (cmds.Forever [false, false, true] "job"
        (some (fun i => if i = 0 then Outcome.fault else Outcome.ret))
        (some (fun _ => Outcome.ret))).1.getLast? = some Event.done
    ∧ (∀ pre post, (cmds.Forever [false, false, true] "job"
        (some (fun i => if i = 0 then Outcome.fault else Outcome.ret))
        (some (fun _ => Outcome.ret))).1 = pre ++ Event.done :: post → post = []) :=
  forever_done_once_and_last [false, false, true] "job"
    (fun i => if i = 0 then Outcome.fault else Outcome.ret) (some (fun _ => Outcome.ret))
    (by decide)

/-- **C5.** With a nil task, whatever the poll results, the name and the fault handler,
`Forever` starts no goroutine and its whole trace is the single error line: no task
invocation, no fault-handler invocation, no invocation of `done`. -/
theorem forever_nil_task (polls : List Bool) (name : String) (pf : Option PanicFunc) :
    cmds.Forever polls name none pf =
      ([Event.log Level.error
          "Cannot run function ( %s ) because the provided function is nil" [Arg.str name]],
        Status.notStarted)
    ∧ cmds.taskCalls (cmds.Forever polls name none pf).1 = 0
    ∧ cmds.panicFuncCalls (cmds.Forever polls name none pf).1 = 0
    ∧ cmds.doneCalls (cmds.Forever polls name none pf).1 = 0 := by
  refine ⟨rfl, ?_, ?_, ?_⟩ <;>
    simp [cmds.Forever, logs.Error, cmds.taskCalls, cmds.panicFuncCalls, cmds.doneCalls]

/-- Counterexample to C6: a call of `Forever` with a nil task, on a context that is
already cancelled, never invokes `done`. -/
theorem forever_nil_task_no_done :
    cmds.doneCalls (cmds.Forever [true] "job" none none).1 = 0
    ∧ ¬ cmds.doneCalls (cmds.Forever [true] "job" none none).1 = 1 := by
  decide

/-- **C6, amended.** In every call of `Forever`, `done` is invoked exactly once if the
goroutine exits (by return or by panic) and not at all otherwise; with a nil task no
goroutine is started, so `done` is never invoked; with a non-nil task and poll
results that include cancellation the goroutine does exit. -/
theorem forever_done_iff_goroutine_exit (polls : List Bool) (name : String)
    (rf : Option RunFunc) (pf : Option PanicFunc) :
    cmds.doneCalls (cmds.Forever polls name rf pf).1 =
      (if (cmds.Forever polls name rf pf).2 = Status.returned
          ∨ (cmds.Forever polls name rf pf).2 = Status.panicked then 1 else 0)
    ∧ (rf = none → (cmds.Forever polls name rf pf).2 = Status.notStarted)
    ∧ (rf ≠ none → true ∈ polls →
        (cmds.Forever polls name rf pf).2 = Status.returned
          ∨ (cmds.Forever polls name rf pf).2 = Status.panicked) := by
  cases rf with
  | none =>
    refine ⟨?_, fun _ => rfl, fun h => absurd rfl h⟩
    simp [cmds.Forever, logs.Error, cmds.doneCalls]
  | some f =>
    obtain ⟨_, _, _, _, _, hd, hs⟩ := cmds.forever_counts polls name f pf
    have hns := (cmds.loop_no_done name f pf polls 0 0).2
    refine ⟨?_, fun h => by simp at h, fun _ hc => ?_⟩
    · rw [hd, hs]
      cases h : (cmds.loop name f pf polls 0 0).2 <;> simp_all
    · have hrun := cmds.loop_not_running name f pf polls 0 0 hc
      rw [hs]
      cases h : (cmds.loop name f pf polls 0 0).2 <;> simp_all

/-- Witness of the amended C6: a task that returns normally, cancellation at the
second poll. -/
theorem forever_done_iff_goroutine_exit_witness :
    (cmds.Forever [false, true] "job" (some (fun _ => Outcome.ret)) none).2 = Status.returned
      ∨ (cmds.Forever [false, true] "job" (some (fun _ => Outcome.ret)) none).2
          = Status.panicked :=
  (forever_done_iff_goroutine_exit [false, true] "job" (some (fun _ => Outcome.ret)) none).2.2
    (by simp) (by decide)

/-- **C3.** For every non-nil task, in the trace of `Forever`: (1) each task invocation
comes directly after the cycle line, itself directly after one poll that reported
"active"; (2) each poll that reported "active" is directly followed by the cycle line
and one task invocation; (3) a poll that reports "cancelled" is directly followed by
the cancellation line and `done` and nothing else, so the loop stops there; (4) the
polls made are an initial part of the poll results available; (5) the task invocations
are as many as the polls that reported "active": when the polls made are `n` times
"active" and then "cancelled", the task is invoked exactly `n` times, which is also the
case when the available poll results start so and the goroutine returned; (6) each
invocation ends with the outcome of the task itself; (7) a context already cancelled at
the first poll gives no task invocation and one invocation of `done`. -/
theorem poll_once_before_each_task (polls : List Bool) (name : String) (rf : RunFunc)
    (pf : Option PanicFunc) :
    (∀ pre o post, (cmds.Forever polls name (some rf) pf).1 = pre ++ Event.task o :: post →
      ∃ pre1 c, pre = pre1 ++ [Event.poll false, cmds.cycleLine name c])
    ∧ (∀ pre post, (cmds.Forever polls name (some rf) pf).1 = pre ++ Event.poll false :: post →
      ∃ c o post1, post = cmds.cycleLine name c :: Event.task o :: post1)
    ∧ (∀ pre post, (cmds.Forever polls name (some rf) pf).1 = pre ++ Event.poll true :: post →
      post = [cmds.cancelLine name, Event.done]
        ∧ (cmds.Forever polls name (some rf) pf).2 = Status.returned)
    ∧ cmds.pollsOf (cmds.Forever polls name (some rf) pf).1 <+: polls
    ∧ cmds.taskCalls (cmds.Forever polls name (some rf) pf).1
        = (cmds.pollsOf (cmds.Forever polls name (some rf) pf).1).count false
    ∧ (∀ n, cmds.pollsOf (cmds.Forever polls name (some rf) pf).1
          = List.replicate n false ++ [true] →
        cmds.taskCalls (cmds.Forever polls name (some rf) pf).1 = n)
    ∧ (∀ n rest, polls = List.replicate n false ++ true :: rest →
        (cmds.Forever polls name (some rf) pf).2 = Status.returned →
        cmds.taskCalls (cmds.Forever polls name (some rf) pf).1 = n)
    ∧ cmds.outcomesOf (cmds.Forever polls name (some rf) pf).1
        = (List.range (cmds.taskCalls (cmds.Forever polls name (some rf) pf).1)).map rf
    ∧ (∀ rest, polls = true :: rest →
        cmds.Forever polls name (some rf) pf
          = ([cmds.startLine name, Event.poll true, cmds.cancelLine name, Event.done],
              Status.returned)) := by
  obtain ⟨hT, _, _, hP, hO, _, hS⟩ := cmds.forever_counts polls name rf pf
  obtain ⟨hc1, _, hc3⟩ := cmds.loop_counts name rf pf polls 0 0
  obtain ⟨hp1, hp2⟩ := cmds.loop_polls name rf pf polls 0 0
  have hcount : cmds.taskCalls (cmds.Forever polls name (some rf) pf).1
      = (cmds.pollsOf (cmds.Forever polls name (some rf) pf).1).count false := by
    rw [hT, hP, hc1]
  have hn : ∀ n, cmds.pollsOf (cmds.Forever polls name (some rf) pf).1
        = List.replicate n false ++ [true] →
      cmds.taskCalls (cmds.Forever polls name (some rf) pf).1 = n := by
    intro n h
    rw [hcount, h]
    simp [List.count_replicate]
  refine ⟨?_, ?_, ?_, by rw [hP]; exact hp1, hcount, hn, ?_, ?_, ?_⟩
  · intro pre o post h
    obtain ⟨pre1, x, hpre, hx⟩ := cmds.forever_pred h (by simp)
    obtain ⟨c, rfl⟩ := cmds.follows_task_inv hx
    subst hpre
    have h2 : (cmds.Forever polls name (some rf) pf).1
        = pre1 ++ cmds.cycleLine name c :: (Event.task o :: post) := by rw [h]; simp
    obtain ⟨pre2, y, hpre2, hy⟩ := cmds.forever_pred h2 (by simp)
    have := cmds.follows_cycle_inv hy
    subst this hpre2
    exact ⟨pre2, c, by simp⟩
  · intro pre post h
    obtain ⟨y, post1, rfl, hy⟩ := cmds.forever_next h (by simp) (by simp) (by simp) (by simp)
      (by simp)
    obtain ⟨c, rfl⟩ := cmds.follows_poll_false hy
    have h2 : (cmds.Forever polls name (some rf) pf).1
        = (pre ++ [Event.poll false]) ++ cmds.cycleLine name c :: post1 := by rw [h]; simp
    obtain ⟨z, post2, rfl, hz⟩ := cmds.forever_next h2 (by simp) (by simp) (by simp) (by simp)
      (by simp)
    obtain ⟨o, rfl⟩ := cmds.follows_cycle_next hz
    exact ⟨c, o, post2, rfl⟩
  · intro pre post h
    obtain ⟨y, post1, rfl, hy⟩ := cmds.forever_next h (by simp) (by simp) (by simp) (by simp)
      (by simp)
    have := cmds.follows_poll_true hy
    subst this
    have h2 : (cmds.Forever polls name (some rf) pf).1
        = (pre ++ [Event.poll true]) ++ cmds.cancelLine name :: post1 := by rw [h]; simp
    obtain ⟨z, post2, rfl, hz⟩ := cmds.forever_next h2 (by simp) (by simp) (by simp) (by simp)
      (by simp)
    have := cmds.follows_cancel_next hz
    subst this
    have hpost2 : post2 = [] := by
      cases post2 with
      | nil => rfl
      | cons w post3 =>
        have h3 : (cmds.Forever polls name (some rf) pf).1
            = (pre ++ [Event.poll true, cmds.cancelLine name]) ++ Event.done :: w :: post3 := by
          rw [h]; simp
        exact (cmds.follows_done_next (cmds.forever_succ h3)).elim
    subst hpost2
    refine ⟨rfl, ?_⟩
    rw [hS]
    rcases hp2 with ⟨hs, _⟩ | ⟨_, m, hm⟩
    · exact hs
    · exfalso
      have hmem : true ∈ cmds.pollsOf (cmds.Forever polls name (some rf) pf).1 := by
        rw [h]; simp [cmds.pollsOf]
      rw [hP, hm] at hmem
      simp at hmem
  · intro n rest hpolls hret
    rw [hS] at hret
    rcases hp2 with ⟨_, m, hm⟩ | ⟨hs, _⟩
    · rw [hm, hpolls] at hp1
      have := cmds.replicate_prefix_eq hp1
      subst this
      exact hn m (by rw [hP, hm])
    · exact absurd hret hs
  · rw [hO, hc3, hT, List.range_eq_range']
  · intro rest hpolls
    subst hpolls
    rfl

/-- Witness of C3: two "active" polls, then "cancelled"; the task faults at its first
invocation and returns at its second. -/
theorem poll_once_before_each_task_witness :
    cmds.taskCalls (cmds.Forever [false, false, true, false] "job"
        (some (fun i => if i = 0 then Outcome.fault else Outcome.ret))
        (some (fun _ => Outcome.ret))).1 = 2
    ∧ cmds.taskCalls (cmds.Forever (List.replicate 2 false ++ true :: [false]) "job"
        (some (fun i => if i = 0 then Outcome.fault else Outcome.ret)) none).1 = 2
    ∧ cmds.Forever (true :: [false]) "job" (some (fun _ => Outcome.fault)) none
        = ([cmds.startLine "job", Event.poll true, cmds.cancelLine "job", Event.done],
            Status.returned) :=
  ⟨(poll_once_before_each_task [false, false, true, false] "job"
      (fun i => if i = 0 then Outcome.fault else Outcome.ret)
      (some (fun _ => Outcome.ret))).2.2.2.2.2.1 2 (by decide),
   (poll_once_before_each_task (List.replicate 2 false ++ true :: [false]) "job"
      (fun i => if i = 0 then Outcome.fault else Outcome.ret) none).2.2.2.2.2.2.1 2 [false] rfl
      (by decide),
   (poll_once_before_each_task (true :: [false]) "job" (fun _ => Outcome.fault)
      none).2.2.2.2.2.2.2.2 [false] rfl⟩

/-- **C2.** The code where it departs from the isolation of task faults: the task faults
and the (non-nil) fault handler faults in turn. `handlePanic` has recovered the panic
of the task, but calls `pf()` with nothing to recover a panic of `pf`: the loop stops
after that one iteration although the context is still active, the second poll is
never made, the task is not invoked again, and the goroutine ends by panic. -/
theorem task_fault_with_faulting_handler_stops_loop :
    cmds.Forever [false, false, true] "job" (some (fun _ => Outcome.fault))
        (some (fun _ => Outcome.fault))
      = ([cmds.startLine "job", Event.poll false, cmds.cycleLine "job" 1,
          Event.task Outcome.fault, cmds.recoveredLine "job", Event.printStack, Event.println,
          Event.panicFunc Outcome.fault, Event.done], Status.panicked)
    ∧ cmds.pollsOf (cmds.Forever [false, false, true] "job" (some (fun _ => Outcome.fault))
        (some (fun _ => Outcome.fault))).1 = [false]
    ∧ cmds.taskCalls (cmds.Forever [false, false, true] "job" (some (fun _ => Outcome.fault))
        (some (fun _ => Outcome.fault))).1 = 1 := by
  decide

/-- Isolation of task faults where the code achieves it. For every non-nil task and
every fault handler that is nil or returns normally whenever it is invoked: (1) an iteration whose task invocation
faults ends normally, and the loop goes on from the next poll with the remaining poll
results; (2) every iteration started by an "active" poll invokes the same task `rf`;
(3) the goroutine never ends by panic, the polls made are an initial part of the poll
results, and if none of them reports cancellation all of them are made, with one task
invocation each; (4) in the trace, a faulting task invocation is directly followed by
the recovery effects and then, if anything, by the next poll. -/
theorem task_fault_ends_only_its_iteration (name : String) (rf : RunFunc) (pf : Option PanicFunc)
    (hpf : ∀ h, pf = some h → ∀ k, rf k = Outcome.fault → h k = Outcome.ret) :
    (∀ ps c i, rf i = Outcome.fault →
      (cmds.iteration name rf pf c i).2.2 = Outcome.ret
      ∧ cmds.loop name rf pf (false :: ps) c i =
        (Event.poll false :: cmds.cycleLine name (cmds.incr c) :: Event.task Outcome.fault ::
          cmds.recoveredLine name :: Event.printStack :: Event.println ::
          ((match pf with
            | none => []
            | some _ => [Event.panicFunc Outcome.ret])
            ++ (cmds.loop name rf pf ps (cmds.incr c) (i + 1)).1),
          (cmds.loop name rf pf ps (cmds.incr c) (i + 1)).2))
    ∧ (∀ ps c i, ∃ rest, (cmds.loop name rf pf (false :: ps) c i).1 =
        Event.poll false :: cmds.cycleLine name (cmds.incr c) :: Event.task (rf i) :: rest)
    ∧ (∀ polls, (cmds.Forever polls name (some rf) pf).2 ≠ Status.panicked
        ∧ cmds.pollsOf (cmds.Forever polls name (some rf) pf).1 <+: polls
        ∧ (true ∉ polls → cmds.pollsOf (cmds.Forever polls name (some rf) pf).1 = polls
            ∧ cmds.taskCalls (cmds.Forever polls name (some rf) pf).1 = polls.length))
    ∧ (∀ polls pre post,
        (cmds.Forever polls name (some rf) pf).1 = pre ++ Event.task Outcome.fault :: post →
        ∃ post1, post = cmds.recoveredLine name :: Event.printStack :: Event.println ::
            ((match pf with
              | none => []
              | some _ => [Event.panicFunc Outcome.ret]) ++ post1)
          ∧ (post1 = [] ∨ ∃ b post2, post1 = Event.poll b :: post2)) := by
  have hloc : ∀ ps c i, rf i = Outcome.fault →
      (cmds.iteration name rf pf c i).2.2 = Outcome.ret
      ∧ cmds.loop name rf pf (false :: ps) c i =
        (Event.poll false :: cmds.cycleLine name (cmds.incr c) :: Event.task Outcome.fault ::
          cmds.recoveredLine name :: Event.printStack :: Event.println ::
          ((match pf with
            | none => []
            | some _ => [Event.panicFunc Outcome.ret])
            ++ (cmds.loop name rf pf ps (cmds.incr c) (i + 1)).1),
          (cmds.loop name rf pf ps (cmds.incr c) (i + 1)).2) := by
    intro ps c i hr
    rcases cmds.iteration_cases name rf pf c i with ⟨hr', _⟩ | ⟨_, hp, hit⟩ | ⟨_, h, hp, hit⟩
    · rw [hr] at hr'; cases hr'
    · have hret : (cmds.iteration name rf pf c i).2.2 = Outcome.ret := by rw [hit]
      refine ⟨hret, ?_⟩
      rw [cmds.loop_false_ret name rf pf ps c i hret, hit]
      subst hp
      simp
    · have hh := hpf h hp i hr
      have hret : (cmds.iteration name rf pf c i).2.2 = Outcome.ret := by rw [hit]; exact hh
      refine ⟨hret, ?_⟩
      rw [cmds.loop_false_ret name rf pf ps c i hret, hit]
      subst hp
      simp [hh]
  have hstat : ∀ ps c i, (cmds.loop name rf pf ps c i).2 ≠ Status.panicked
      ∧ (true ∉ ps → cmds.pollsOf (cmds.loop name rf pf ps c i).1 = ps) := by
    refine cmds.loop_ind name rf pf
      (fun ps _ _ r => r.2 ≠ Status.panicked ∧ (true ∉ ps → cmds.pollsOf r.1 = ps))
      ?_ ?_ ?_ ?_ ?_ ?_
    · intro c i; simp [cmds.pollsOf]
    · intro ps c i; simp
    · rintro ps c i ⟨t, s⟩ _ ⟨h1, h2⟩
      refine ⟨h1, fun hm => ?_⟩
      have := h2 (by simpa using hm)
      simp only [cmds.pollsOf] at this ⊢
      simp [this]
    · rintro ps c i ⟨t, s⟩ _ _ ⟨h1, h2⟩
      refine ⟨h1, fun hm => ?_⟩
      have := h2 (by simpa using hm)
      simp only [cmds.pollsOf] at this ⊢
      simp [this]
    · rintro ps c i ⟨t, s⟩ h _ _ _ ⟨h1, h2⟩
      refine ⟨h1, fun hm => ?_⟩
      have := h2 (by simpa using hm)
      simp only [cmds.pollsOf] at this ⊢
      simp [this]
    · rintro ps c i h hr hp hh
      have := hpf h hp i hr
      rw [hh] at this
      cases this
  refine ⟨hloc, ?_, ?_, ?_⟩
  · intro ps c i
    rcases cmds.iteration_cases name rf pf c i with ⟨hr, hit⟩ | ⟨hr, _, hit⟩ | ⟨hr, h, _, hit⟩
    · exact ⟨_, by rw [cmds.loop_false_ret name rf pf ps c i (by rw [hit]), hit, hr]; rfl⟩
    · exact ⟨_, by rw [cmds.loop_false_ret name rf pf ps c i (by rw [hit]), hit, hr]; rfl⟩
    · cases hh : h i with
      | ret =>
        exact ⟨_, by
          rw [cmds.loop_false_ret name rf pf ps c i (by rw [hit]; exact hh), hit, hr]; rfl⟩
      | fault =>
        exact ⟨_, by
          rw [cmds.loop_false_fault name rf pf ps c i (by rw [hit]; exact hh), hit, hr]⟩
  · intro polls
    obtain ⟨hT, _, _, hP, _, _, hS⟩ := cmds.forever_counts polls name rf pf
    obtain ⟨hc1, _, _⟩ := cmds.loop_counts name rf pf polls 0 0
    obtain ⟨hp1, _⟩ := cmds.loop_polls name rf pf polls 0 0
    obtain ⟨hs1, hs2⟩ := hstat polls 0 0
    refine ⟨by rw [hS]; exact hs1, by rw [hP]; exact hp1, fun hm => ?_⟩
    have hall := hs2 hm
    refine ⟨by rw [hP]; exact hall, ?_⟩
    rw [hT, hc1, hall]
    have : ∀ l : List Bool, true ∉ l → l.count false = l.length := by
      intro l hl
      induction l with
      | nil => rfl
      | cons b l ih =>
        cases b with
        | true => simp at hl
        | false => simp [ih (by simpa using hl)]
    exact this polls hm
  · intro polls pre post h
    obtain ⟨y1, p1, rfl, hy1⟩ := cmds.forever_next h (by simp) (by simp) (by simp) (by simp)
      (by simp)
    have := cmds.follows_fault_next hy1
    subst this
    have h2 : (cmds.Forever polls name (some rf) pf).1
        = (pre ++ [Event.task Outcome.fault]) ++ cmds.recoveredLine name :: p1 := by
      rw [h]; simp
    obtain ⟨y2, p2, rfl, hy2⟩ := cmds.forever_next h2 (by simp) (by simp) (by simp) (by simp)
      (by simp)
    have := cmds.follows_recovered_next hy2
    subst this
    have h3 : (cmds.Forever polls name (some rf) pf).1
        = (pre ++ [Event.task Outcome.fault, cmds.recoveredLine name])
          ++ Event.printStack :: p2 := by
      rw [h]; simp
    obtain ⟨y3, p3, rfl, hy3⟩ := cmds.forever_next h3 (by simp) (by simp) (by simp) (by simp)
      (by simp)
    have := cmds.follows_stack_next hy3
    subst this
    have h4 : (cmds.Forever polls name (some rf) pf).1
        = (pre ++ [Event.task Outcome.fault, cmds.recoveredLine name, Event.printStack])
          ++ Event.println :: p3 := by
      rw [h]; simp
    cases pf with
    | none =>
      refine ⟨p3, rfl, ?_⟩
      cases p3 with
      | nil => exact Or.inl rfl
      | cons y4 p4 =>
        rcases cmds.follows_println_next (cmds.forever_succ h4) with ⟨_, b, hb⟩ | ⟨hb, _⟩
        · exact Or.inr ⟨b, p4, by rw [hb]⟩
        · simp at hb
    | some hd =>
      obtain ⟨y4, p4, rfl, hy4⟩ := cmds.forever_next h4 (by simp) (by simp) (by simp) (by simp)
        (by simp)
      rcases cmds.follows_println_next hy4 with ⟨hb, _⟩ | ⟨_, o, ho⟩
      · simp at hb
      · subst ho
        have h5 : (cmds.Forever polls name (some rf) (some hd)).1
            = (pre ++ [Event.task Outcome.fault, cmds.recoveredLine name, Event.printStack,
                Event.println]) ++ Event.panicFunc o :: p4 := by
          rw [h]; simp
        have hst := (hstat polls 0 0).1
        cases o with
        | fault =>
          exfalso
          have hmem : Event.panicFunc Outcome.fault
              ∈ (cmds.Forever polls name (some rf) (some hd)).1 := by
            rw [h5]; simp
          have hS := (cmds.forever_counts polls name rf (some hd)).2.2.2.2.2.2
          exact hst (hS ▸ cmds.forever_panicFunc_fault hmem)
        | ret =>
          refine ⟨p4, rfl, ?_⟩
          cases p4 with
          | nil => exact Or.inl rfl
          | cons y5 p5 =>
            obtain ⟨b, hb⟩ := cmds.follows_panicFunc_ret_next (cmds.forever_succ h5)
            exact Or.inr ⟨b, p5, by rw [hb]⟩

/-- Isolation of task faults at a concrete run: a task that always faults and a fault
handler that always returns; after the faulting first iteration the loop goes on with
the next poll. -/
theorem task_fault_ends_only_its_iteration_witness :
    (cmds.Forever [false, false] "job" (some (fun _ => Outcome.fault))
        (some (fun _ => Outcome.ret))).2 ≠ Status.panicked
    ∧ cmds.pollsOf (cmds.Forever [false, false] "job" (some (fun _ => Outcome.fault))
        (some (fun _ => Outcome.ret))).1 <+: [false, false]
    ∧ (true ∉ [false, false] →
        cmds.pollsOf (cmds.Forever [false, false] "job" (some (fun _ => Outcome.fault))
          (some (fun _ => Outcome.ret))).1 = [false, false]
        ∧ cmds.taskCalls (cmds.Forever [false, false] "job" (some (fun _ => Outcome.fault))
          (some (fun _ => Outcome.ret))).1 = [false, false].length) :=
  (task_fault_ends_only_its_iteration "job" (fun _ => Outcome.fault)
    (some (fun _ => Outcome.ret))
    (by intro h hh k _; cases hh; rfl)).2.2.1 [false, false]

/-- **C4.** For every non-nil task `rf` and every non-nil fault handler `hd`, in the trace
of `Forever`: (1) the fault-handler invocations are as many as the faulting task
invocations; (2) a faulting task invocation is directly followed by the recovery line,
the stack print, the empty line and one invocation of the fault handler, after which
comes, if anything, the next poll or `done`; (3) every invocation of the fault handler
comes directly after the recovery effects of a faulting task invocation; (4) a task
invocation that returns normally is followed, if by anything, by the next poll; (5) for
a task that faults at every invocation the fault-handler invocations are as many as
the task invocations, and in a run whose polls are `N` times "active" and then
"cancelled" both numbers are `N`, `done` is invoked once and the goroutine returned. -/
theorem panicFunc_once_per_fault (polls : List Bool) (name : String) (rf : RunFunc)
    (hd : PanicFunc) :
    cmds.panicFuncCalls (cmds.Forever polls name (some rf) (some hd)).1
      = cmds.faultCalls (cmds.Forever polls name (some rf) (some hd)).1
    ∧ (∀ pre post, (cmds.Forever polls name (some rf) (some hd)).1
          = pre ++ Event.task Outcome.fault :: post →
        ∃ o post1, post = cmds.recoveredLine name :: Event.printStack :: Event.println
            :: Event.panicFunc o :: post1
          ∧ ∀ y post2, post1 = y :: post2 → (∃ b, y = Event.poll b) ∨ y = Event.done)
    ∧ (∀ pre o post, (cmds.Forever polls name (some rf) (some hd)).1
          = pre ++ Event.panicFunc o :: post →
        ∃ pre1, pre = pre1 ++ [Event.task Outcome.fault, cmds.recoveredLine name,
          Event.printStack, Event.println])
    ∧ (∀ pre post, (cmds.Forever polls name (some rf) (some hd)).1
          = pre ++ Event.task Outcome.ret :: post →
        post = [] ∨ ∃ b post1, post = Event.poll b :: post1)
    ∧ ((∀ k, rf k = Outcome.fault) →
        cmds.panicFuncCalls (cmds.Forever polls name (some rf) (some hd)).1
          = cmds.taskCalls (cmds.Forever polls name (some rf) (some hd)).1
        ∧ ∀ N, cmds.pollsOf (cmds.Forever polls name (some rf) (some hd)).1
              = List.replicate N false ++ [true] →
            cmds.taskCalls (cmds.Forever polls name (some rf) (some hd)).1 = N
            ∧ cmds.panicFuncCalls (cmds.Forever polls name (some rf) (some hd)).1 = N
            ∧ cmds.doneCalls (cmds.Forever polls name (some rf) (some hd)).1 = 1
            ∧ (cmds.Forever polls name (some rf) (some hd)).2 = Status.returned) := by
  obtain ⟨hT, hPF, hF, hP, _, hD, hS⟩ := cmds.forever_counts polls name rf (some hd)
  obtain ⟨hc1, hc2, _⟩ := cmds.loop_counts name rf (some hd) polls 0 0
  obtain ⟨_, hp2⟩ := cmds.loop_polls name rf (some hd) polls 0 0
  have hcount : cmds.panicFuncCalls (cmds.Forever polls name (some rf) (some hd)).1
      = cmds.faultCalls (cmds.Forever polls name (some rf) (some hd)).1 := by
    rw [hPF, hF, hc2]; simp
  refine ⟨hcount, ?_, ?_, ?_, ?_⟩
  · intro pre post h
    obtain ⟨o, post1, rfl⟩ := cmds.forever_after_fault h
    refine ⟨o, post1, rfl, ?_⟩
    intro y post2 hy
    subst hy
    have h5 : (cmds.Forever polls name (some rf) (some hd)).1
        = (pre ++ [Event.task Outcome.fault, cmds.recoveredLine name, Event.printStack,
            Event.println]) ++ Event.panicFunc o :: y :: post2 := by
      rw [h]; simp
    have hy := cmds.forever_succ h5
    cases o with
    | ret => exact Or.inl (cmds.follows_panicFunc_ret_next hy)
    | fault => exact Or.inr (cmds.follows_panicFunc_fault_next hy)
  · intro pre o post h
    exact cmds.forever_before_panicFunc h
  · intro pre post h
    cases post with
    | nil => exact Or.inl rfl
    | cons y post1 =>
      obtain ⟨b, hb⟩ := cmds.follows_ret_next (cmds.forever_succ h)
      exact Or.inr ⟨b, post1, by rw [hb]⟩
  · intro hrf
    have hall : cmds.panicFuncCalls (cmds.Forever polls name (some rf) (some hd)).1
        = cmds.taskCalls (cmds.Forever polls name (some rf) (some hd)).1 := by
      rw [hcount]; exact cmds.faultCalls_eq_taskCalls polls name rf (some hd) hrf
    refine ⟨hall, ?_⟩
    intro N hN
    have hTN : cmds.taskCalls (cmds.Forever polls name (some rf) (some hd)).1 = N := by
      rw [hT, hc1, ← hP, hN]
      simp [List.count_replicate]
    have hret : (cmds.loop name rf (some hd) polls 0 0).2 = Status.returned := by
      rcases hp2 with ⟨hs, _⟩ | ⟨_, m, hm⟩
      · exact hs
      · exfalso
        rw [hP, hm] at hN
        have : true ∈ List.replicate m false := by rw [hN]; simp
        simp at this
    refine ⟨hTN, by rw [hall]; exact hTN, ?_, by rw [hS]; exact hret⟩
    rw [hD, hret]; simp

/-- Witness of C4: a task that faults at every invocation, a fault handler that
returns, three "active" polls and then cancellation. -/
theorem panicFunc_once_per_fault_witness :
    cmds.taskCalls (cmds.Forever [false, false, false, true] "job"
        (some (fun _ => Outcome.fault)) (some (fun _ => Outcome.ret))).1 = 3
    ∧ cmds.panicFuncCalls (cmds.Forever [false, false, false, true] "job"
        (some (fun _ => Outcome.fault)) (some (fun _ => Outcome.ret))).1 = 3
    ∧ cmds.doneCalls (cmds.Forever [false, false, false, true] "job"
        (some (fun _ => Outcome.fault)) (some (fun _ => Outcome.ret))).1 = 1
    ∧ (cmds.Forever [false, false, false, true] "job"
        (some (fun _ => Outcome.fault)) (some (fun _ => Outcome.ret))).2 = Status.returned :=
  ((panicFunc_once_per_fault [false, false, false, true] "job" (fun _ => Outcome.fault)
    (fun _ => Outcome.ret)).2.2.2.2 (fun _ => rfl)).2 3 (by decide)

/-- **C9.** When the task faults at its invocation number `n` (counting from 0), the
fault handler, which returned at every earlier invocation, faults in turn, and the
first `n + 1` polls report "active": the goroutine ends by panic; the trace ends with
the faulting task invocation, the recovery effects, the faulting invocation of the
fault handler and `done`; exactly `n + 1` polls are made, none of which reports
cancellation, whatever the later poll results; the task is invoked `n + 1` times in
all; `done` is invoked exactly once. -/
theorem panicFunc_fault_ends_goroutine (polls : List Bool) (name : String) (rf : RunFunc)
    (hd : PanicFunc) (n : Nat) (rest : List Bool)
    (hpolls : polls = List.replicate n false ++ false :: rest)
    (hprev : ∀ k, k < n → rf k = Outcome.fault → hd k = Outcome.ret)
    (hf : rf n = Outcome.fault) (hh : hd n = Outcome.fault) :
    (cmds.Forever polls name (some rf) (some hd)).2 = Status.panicked
    ∧ (∃ pre, (cmds.Forever polls name (some rf) (some hd)).1
        = pre ++ [Event.task Outcome.fault, cmds.recoveredLine name, Event.printStack,
            Event.println, Event.panicFunc Outcome.fault, Event.done])
    ∧ cmds.pollsOf (cmds.Forever polls name (some rf) (some hd)).1 = List.replicate (n + 1) false
    ∧ cmds.taskCalls (cmds.Forever polls name (some rf) (some hd)).1 = n + 1
    ∧ cmds.doneCalls (cmds.Forever polls name (some rf) (some hd)).1 = 1 := by
  subst hpolls
  obtain ⟨hT, _, _, hP, _, hD, hS⟩ :=
    cmds.forever_counts (List.replicate n false ++ false :: rest) name rf (some hd)
  obtain ⟨hc1, _, _⟩ :=
    cmds.loop_counts name rf (some hd) (List.replicate n false ++ false :: rest) 0 0
  obtain ⟨hst, hpl⟩ := cmds.loop_crash_at name rf hd rest n 0 0
    (by intro k hk; simpa using hprev k hk) (by simpa using hf) (by simpa using hh)
  have hstatus : (cmds.Forever (List.replicate n false ++ false :: rest) name (some rf)
      (some hd)).2 = Status.panicked := by rw [hS]; exact hst
  refine ⟨hstatus, ?_, by rw [hP]; exact hpl, ?_, ?_⟩
  · obtain ⟨pre0, e, ht, _, hlast⟩ :=
      cmds.forever_last (List.replicate n false ++ false :: rest) name rf (some hd)
    have he : e = Event.done := by
      rcases hlast with ⟨_, a⟩ | ⟨a, _⟩
      · exact a
      · rw [hstatus] at a; cases a
    subst he
    obtain ⟨p1, x, rfl, hx⟩ := cmds.forever_pred ht (by simp)
    have hxx : x = Event.panicFunc Outcome.fault := by
      have := cmds.follows_inv hx
      simp at this
      rcases this with hc | hc
      · exfalso
        subst hc
        have h1 : (cmds.Forever (List.replicate n false ++ false :: rest) name (some rf)
            (some hd)).1 = p1 ++ cmds.cancelLine name :: [Event.done] := by rw [ht]; simp
        obtain ⟨p2, y, rfl, hy⟩ := cmds.forever_pred h1 (by simp)
        have hyy := cmds.follows_inv hy
        simp at hyy
        subst hyy
        have hmem : true ∈ cmds.pollsOf (cmds.Forever (List.replicate n false ++ false :: rest)
            name (some rf) (some hd)).1 := by
          rw [ht]; simp [cmds.pollsOf]
        rw [hP, hpl] at hmem
        simp at hmem
      · exact hc
    subst hxx
    have h2 : (cmds.Forever (List.replicate n false ++ false :: rest) name (some rf)
        (some hd)).1 = p1 ++ Event.panicFunc Outcome.fault :: [Event.done] := by rw [ht]; simp
    obtain ⟨p3, rfl⟩ := cmds.forever_before_panicFunc h2
    exact ⟨p3, by rw [ht]; simp⟩
  · rw [hT, hc1, hpl]
    simp [List.count_replicate]
  · rw [hD, hst]; simp

/-- Witness of C9: the task faults at both invocations; the fault handler returns at the
first and faults at the second; the context stays active for three polls. -/
theorem panicFunc_fault_ends_goroutine_witness :
    (cmds.Forever (List.replicate 1 false ++ false :: [false, true]) "job"
        (some (fun _ => Outcome.fault))
        (some (fun i => if i = 1 then Outcome.fault else Outcome.ret))).2 = Status.panicked
    ∧ (∃ pre, (cmds.Forever (List.replicate 1 false ++ false :: [false, true]) "job"
        (some (fun _ => Outcome.fault))
        (some (fun i => if i = 1 then Outcome.fault else Outcome.ret))).1
        = pre ++ [Event.task Outcome.fault, cmds.recoveredLine "job", Event.printStack,
            Event.println, Event.panicFunc Outcome.fault, Event.done])
    ∧ cmds.pollsOf (cmds.Forever (List.replicate 1 false ++ false :: [false, true]) "job"
        (some (fun _ => Outcome.fault))
        (some (fun i => if i = 1 then Outcome.fault else Outcome.ret))).1
        = List.replicate (1 + 1) false
    ∧ cmds.taskCalls (cmds.Forever (List.replicate 1 false ++ false :: [false, true]) "job"
        (some (fun _ => Outcome.fault))
        (some (fun i => if i = 1 then Outcome.fault else Outcome.ret))).1 = 1 + 1
    ∧ cmds.doneCalls (cmds.Forever (List.replicate 1 false ++ false :: [false, true]) "job"
        (some (fun _ => Outcome.fault))
        (some (fun i => if i = 1 then Outcome.fault else Outcome.ret))).1 = 1 :=
  panicFunc_fault_ends_goroutine (List.replicate 1 false ++ false :: [false, true]) "job"
    (fun _ => Outcome.fault) (fun i => if i = 1 then Outcome.fault else Outcome.ret) 1
    [false, true] rfl (by intro k hk _; have : k = 0 := by omega
                          subst this; rfl) rfl rfl

/-! ## Structure of the results of the environment accessors -/

namespace strs

/-- There is always at least one field. -/
theorem fields_ne_nil (sep : Char) (cs : List Char) : fields sep cs ≠ [] := by
  cases cs with
  | nil => simp [fields]
  | cons c cs =>
    simp only [fields]
    split
    · simp
    · split <;> simp

/-- Joining the fields with the separator gives back the text that was cut. -/
theorem fields_intercalate (sep : Char) (cs : List Char) :
    List.intercalate [sep] (fields sep cs) = cs := by
  induction cs with
  | nil => simp [fields, List.intercalate]
  | cons c cs ih =>
    have hne := fields_ne_nil sep cs
    simp only [fields]
    split
    · next hc =>
      subst hc
      cases hf : fields c cs with
      | nil => exact absurd hf hne
      | cons f fs =>
        rw [hf] at ih
        simp only [List.intercalate] at ih ⊢
        simp [List.intersperse, ih]
    · cases hf : fields sep cs with
      | nil => exact absurd hf hne
      | cons f fs =>
        rw [hf] at ih
        simp only [List.intercalate] at ih ⊢
        cases fs with
        | nil => simpa [List.intersperse] using ih
        | cons g gs => simpa [List.intersperse] using ih

/-- No field contains the separator. -/
theorem fields_no_sep (sep : Char) (cs : List Char) : ∀ f ∈ fields sep cs, sep ∉ f := by
  induction cs with
  | nil => simp [fields]
  | cons c cs ih =>
    have hne := fields_ne_nil sep cs
    simp only [fields]
    split
    · intro f hf
      simp only [List.mem_cons] at hf
      rcases hf with hf | hf
      · subst hf; simp
      · exact ih f hf
    · next hc =>
      cases hf : fields sep cs with
      | nil => exact absurd hf hne
      | cons g gs =>
        rw [hf] at ih
        intro f hfm
        simp only [List.mem_cons] at hfm
        rcases hfm with hfm | hfm
        · subst hfm
          have := ih g (by simp)
          simp only [List.mem_cons, not_or]
          exact ⟨fun h => hc h.symm, this⟩
        · exact ih f (by simp [hfm])

/-- The comma-separated fields of a text: `SplitString` at `","`. -/
theorem splitString_comma (s : String) :
    SplitString s "," = (fields ',' s.data).map String.mk := rfl

/-- Splitting at `","` never gives the empty list. -/
theorem splitString_comma_ne_nil (s : String) : SplitString s "," ≠ [] := by
  rw [splitString_comma]
  simpa using fields_ne_nil ',' s.data

end strs

namespace env

/-- A string other than `""` has positive length. -/
theorem length_pos_of_ne_empty (v : String) (h : v ≠ "") : v.length > 0 := by
  cases v with
  | mk d =>
    cases d with
    | nil => exact absurd rfl h
    | cons c cs => simp [String.length]

/-- The accumulation loop of `GetSliceInt` maps `ints.Get` over the values. -/
theorem foldl_append_get (values : List String) (acc : List Int) :
    values.foldl (fun res v => res ++ [ints.Get v]) acc = acc ++ values.map ints.Get := by
  induction values generalizing acc with
  | nil => simp
  | cons v vs ih => simp [ih]

/-- The accessor `GetSlice` on a variable that is unset or empty. -/
theorem getSlice_default (environ : String → Option String) (env_name : String)
    (defaults : List String) (h : environ env_name = none ∨ environ env_name = some "") :
    GetSlice environ env_name defaults = defaults := by
  rcases h with h | h <;> simp [GetSlice, Get, h]

/-- The accessor `GetSlice` on a variable set to a non-empty value. -/
theorem getSlice_set (environ : String → Option String) (env_name : String)
    (defaults : List String) (v : String) (h : environ env_name = some v) (hv : v ≠ "") :
    GetSlice environ env_name defaults = strs.SplitString v "," := by
  have := length_pos_of_ne_empty v hv
  simp [GetSlice, Get, h, this]

/-- The accessor `GetSliceInt` on a variable that is unset or empty. -/
theorem getSliceInt_default (environ : String → Option String) (env_name : String)
    (defaults : List Int) (h : environ env_name = none ∨ environ env_name = some "") :
    GetSliceInt environ env_name defaults = defaults := by
  simp [GetSliceInt, getSlice_default environ env_name [] h]

/-- The accessor `GetSliceInt` on a variable set to a non-empty value. -/
theorem getSliceInt_set (environ : String → Option String) (env_name : String)
    (defaults : List Int) (v : String) (h : environ env_name = some v) (hv : v ≠ "") :
    GetSliceInt environ env_name defaults = (strs.SplitString v ",").map ints.Get := by
  have hne := strs.splitString_comma_ne_nil v
  have hpos : (strs.SplitString v ",").length > 0 := List.length_pos.2 hne
  simp only [GetSliceInt, getSlice_set environ env_name [] v h hv]
  rw [if_pos hpos, foldl_append_get]
  simp

end env

/-! ## The claims on the environment accessors -/

/-- **C7.** For every variable name and every list of defaults, `GetSlice` returns
exactly the defaults when the variable is unset; when it is set to a non-empty value
`v` it returns, whatever the defaults, the comma-separated fields of `v` in order:
the list `SplitString v ","`, whose members contain no comma and which joined with
commas give back `v`. -/
theorem getSlice_unset_or_fields (environ : String → Option String) (env_name : String)
    (defaults : List String) :
    (environ env_name = none → env.GetSlice environ env_name defaults = defaults)
    ∧ (∀ v, environ env_name = some v → v ≠ "" →
        env.GetSlice environ env_name defaults = strs.SplitString v ","
        ∧ List.intercalate [','] ((env.GetSlice environ env_name defaults).map String.data)
            = v.data
        ∧ ∀ f ∈ env.GetSlice environ env_name defaults, ',' ∉ f.data) := by
  refine ⟨fun h => env.getSlice_default environ env_name defaults (Or.inl h), ?_⟩
  intro v h hv
  have hs := env.getSlice_set environ env_name defaults v h hv
  refine ⟨hs, ?_, ?_⟩
  · rw [hs, strs.splitString_comma]
    have : (List.map String.data (List.map String.mk (strs.fields ',' v.data)))
        = strs.fields ',' v.data := by
      simp [List.map_map, Function.comp_def]
    rw [this]
    exact strs.fields_intercalate ',' v.data
  · intro f hf
    rw [hs, strs.splitString_comma] at hf
    simp only [List.mem_map] at hf
    obtain ⟨g, hg, rfl⟩ := hf
    exact strs.fields_no_sep ',' v.data g hg

/-- Witness of C7, the example of the claim: `GetSlice("X", "a", "b")` is `["a","b"]`
with `X` unset and `["1","2","3"]` with `X=1,2,3`. -/
theorem getSlice_unset_or_fields_witness :
    env.GetSlice envNone "X" ["a", "b"] = ["a", "b"]
    ∧ env.GetSlice (envX "1,2,3") "X" ["a", "b"] = ["1", "2", "3"] :=
  ⟨(getSlice_unset_or_fields envNone "X" ["a", "b"]).1 rfl,
   (((getSlice_unset_or_fields (envX "1,2,3") "X" ["a", "b"]).2 "1,2,3" rfl
      (by decide)).1).trans (by decide)⟩

/-- **C8.** For every variable set to a non-empty value `v`, whatever the defaults,
`GetSliceInt` returns the list obtained from the comma-separated fields of `v` by
taking, field by field and in order, the integer parse of the field, or 0 when the
field does not parse: same length, and element `k` depends on field `k` only. -/
theorem getSliceInt_parses_each_field (environ : String → Option String) (env_name : String)
    (defaults : List Int) (v : String) (hset : environ env_name = some v) (hne : v ≠ "") :
    env.GetSliceInt environ env_name defaults
      = (strs.SplitString v ",").map (fun f =>
          match ints.parse f with
          | some n => n
          | none => 0)
    ∧ (env.GetSliceInt environ env_name defaults).length = (strs.SplitString v ",").length
    ∧ (∀ k : Nat, (env.GetSliceInt environ env_name defaults)[k]?
        = ((strs.SplitString v ",")[k]?).map (fun f =>
            match ints.parse f with
            | some n => n
            | none => 0)) := by
  have hs := env.getSliceInt_set environ env_name defaults v hset hne
  have hfun : ints.Get = (fun f =>
      match ints.parse f with
      | some n => n
      | none => 0) := by
    funext f
    unfold ints.Get
    cases ints.parse f <;> rfl
  rw [hs, hfun]
  refine ⟨rfl, by simp, fun k => by simp⟩

/-- Witness of C8, the example of the claim: `X=1,2,x` gives `[1, 2, 0]`, the defaults
being left out. -/
theorem getSliceInt_parses_each_field_witness :
    env.GetSliceInt (envX "1,2,x") "X" [7, 8] = [1, 2, 0] :=
  ((getSliceInt_parses_each_field (envX "1,2,x") "X" [7, 8] "1,2,x" rfl (by decide)).1).trans
    (by decide)

/-- **C10.** On a variable set to the empty string, `Get` returns the empty string
whatever its default, while `GetSlice` and `GetSliceInt` return their defaults, as they
do on an unset variable. `GetSlice` and `GetSliceInt` return their defaults, whatever
these are, if and only if the variable is unset or empty; on a variable set to a
non-empty value their result does not depend on the defaults, and it is never the
empty list. -/
theorem empty_value_get_vs_slices (environ : String → Option String) (env_name : String) :
    (environ env_name = some "" →
      (∀ d, env.Get environ env_name d = "")
      ∧ (∀ ds, env.GetSlice environ env_name ds = ds
          ∧ env.GetSlice environ env_name ds = env.GetSlice envNone env_name ds)
      ∧ (∀ ds, env.GetSliceInt environ env_name ds = ds
          ∧ env.GetSliceInt environ env_name ds = env.GetSliceInt envNone env_name ds))
    ∧ ((∀ ds, env.GetSlice environ env_name ds = ds)
        ↔ (environ env_name = none ∨ environ env_name = some ""))
    ∧ ((∀ ds, env.GetSliceInt environ env_name ds = ds)
        ↔ (environ env_name = none ∨ environ env_name = some ""))
    ∧ (∀ v, environ env_name = some v → v ≠ "" →
        (∀ ds, env.GetSlice environ env_name ds = env.GetSlice environ env_name []
          ∧ env.GetSlice environ env_name ds ≠ [])
        ∧ (∀ ds, env.GetSliceInt environ env_name ds = env.GetSliceInt environ env_name []
          ∧ env.GetSliceInt environ env_name ds ≠ [])) := by
  have hset : ∀ v, environ env_name = some v → v ≠ "" →
      (∀ ds, env.GetSlice environ env_name ds = env.GetSlice environ env_name []
        ∧ env.GetSlice environ env_name ds ≠ [])
      ∧ (∀ ds, env.GetSliceInt environ env_name ds = env.GetSliceInt environ env_name []
        ∧ env.GetSliceInt environ env_name ds ≠ []) := by
    intro v h hv
    have hne := strs.splitString_comma_ne_nil v
    refine ⟨fun ds => ?_, fun ds => ?_⟩
    · rw [env.getSlice_set environ env_name ds v h hv, env.getSlice_set environ env_name [] v h hv]
      exact ⟨rfl, hne⟩
    · rw [env.getSliceInt_set environ env_name ds v h hv,
        env.getSliceInt_set environ env_name [] v h hv]
      exact ⟨rfl, by simpa using hne⟩
  have hcases : (environ env_name = none ∨ environ env_name = some "")
      ∨ ∃ v, environ env_name = some v ∧ v ≠ "" := by
    cases h : environ env_name with
    | none => exact Or.inl (Or.inl rfl)
    | some v =>
      by_cases hv : v = ""
      · exact Or.inl (Or.inr (by rw [hv]))
      · exact Or.inr ⟨v, rfl, hv⟩
  refine ⟨?_, ?_, ?_, hset⟩
  · intro h
    refine ⟨fun d => by simp [env.Get, h], fun ds => ⟨?_, ?_⟩, fun ds => ⟨?_, ?_⟩⟩
    · exact env.getSlice_default environ env_name ds (Or.inr h)
    · rw [env.getSlice_default environ env_name ds (Or.inr h),
        env.getSlice_default envNone env_name ds (Or.inl rfl)]
    · exact env.getSliceInt_default environ env_name ds (Or.inr h)
    · rw [env.getSliceInt_default environ env_name ds (Or.inr h),
        env.getSliceInt_default envNone env_name ds (Or.inl rfl)]
  · constructor
    · intro hall
      rcases hcases with h | ⟨v, h, hv⟩
      · exact h
      · exact absurd (hall []) ((hset v h hv).1 []).2
    · intro h ds
      exact env.getSlice_default environ env_name ds h
  · constructor
    · intro hall
      rcases hcases with h | ⟨v, h, hv⟩
      · exact h
      · exact absurd (hall []) ((hset v h hv).2 []).2
    · intro h ds
      exact env.getSliceInt_default environ env_name ds h

/-- Witness of C10: with `X` set to the empty string, `Get` gives the empty string and
the list accessors give their defaults. -/
theorem empty_value_get_vs_slices_witness :
    (∀ d, env.Get (envX "") "X" d = "")
    ∧ (∀ ds, env.GetSlice (envX "") "X" ds = ds
        ∧ env.GetSlice (envX "") "X" ds = env.GetSlice envNone "X" ds)
    ∧ (∀ ds, env.GetSliceInt (envX "") "X" ds = ds
        ∧ env.GetSliceInt (envX "") "X" ds = env.GetSliceInt envNone "X" ds) :=
  (empty_value_get_vs_slices (envX "") "X").1 rfl
